import Mathlib

/-!
Verification of the terrain storage engine and the priority worker pool of the
distributed-architecture simulation platform.

The C++ sources are shallowly embedded:
* `double` coordinates are modelled as exact rationals (`ℚ`); `static_cast<int>`
  of a nonnegative quotient is truncation, modelled by `truncQ`;
* the LevelDB store is modelled as an association list of string keys and
  values with byte-lexicographic range scans (`bytesLt` models the bytewise
  comparator; all keys produced by the engine are printable ASCII, where the
  byte order and the `Char` code-point order agree);
* `std::ostringstream` fixed 7-digit formatting is modelled by `fmt7`, with the
  rounding of the exact value modelled as round-half-up on the magnitude;
* the grid LRU cache is a recency-ordered association list (front = most
  recently used), mirroring the `access_list_` + `cache_map_` pair;
* exceptions are modelled with `Except` / explicit success flags.
-/

/-! ### Byte-lexicographic order (LevelDB bytewise comparator) -/

/-- Strict byte-lexicographic order on character lists; for the ASCII strings
the engine produces this is exactly `memcmp` order on the UTF-8 bytes. -/
def bytesLt : List Char → List Char → Bool
  | _, [] => false
  | [], _ :: _ => true
  | a :: as, b :: bs =>
    if a.toNat < b.toNat then true
    else if b.toNat < a.toNat then false
    else bytesLt as bs

/-- Strict byte-lexicographic order on strings. -/
def strLt (s t : String) : Bool := bytesLt s.data t.data

/-- `start ≤ k < end` for the half-open scan range of grid cell `gid`,
mirroring `Seek(start)` + iterate-while `key < end` with
`start = gid ++ "|"`, `end = gid ++ "|~"`. -/
def inCellRange (k gid : String) : Bool :=
  !(strLt k (gid ++ "|")) && strLt k (gid ++ "|~")

/-! ### Truncation and decimal rendering -/

/-- `static_cast<int>` on a `double`: truncation toward zero. -/
def truncQ (q : ℚ) : ℤ := if q < 0 then ⌈q⌉ else ⌊q⌋

/-- Most-significant-first decimal digits of `n` (fuel-based so the kernel can
evaluate it); empty for `n = 0`. -/
def natCharsAux : ℕ → ℕ → List Char
  | 0, _ => []
  | fuel + 1, n => if n = 0 then [] else natCharsAux fuel (n / 10) ++ [Nat.digitChar (n % 10)]

/-- Decimal rendering of a natural number, as `operator<<` renders it. -/
def natChars (n : ℕ) : List Char := if n = 0 then ['0'] else natCharsAux n n

/-- Decimal rendering of an integer. -/
def intChars (i : ℤ) : List Char :=
  if i < 0 then '-' :: natChars i.natAbs else natChars i.natAbs

/-- Left padding with a fill character, as `std::setw`/`std::setfill`. -/
def padChars (c : Char) (w : ℕ) (l : List Char) : List Char :=
  List.replicate (w - l.length) c ++ l

/-- `std::fixed << std::setprecision(7)` rendering of a double, on the exact
value; the rounding of the exact value to 7 fractional digits is modelled as
round half up on the magnitude (the engine's inputs never sit at a midpoint). -/
def fmt7 (q : ℚ) : String :=
  let m : ℕ := (⌊|q| * 10000000 + 1 / 2⌋).toNat
  ⟨(if q < 0 then ['-'] else []) ++
    natChars (m / 10000000) ++ '.' :: padChars '0' 7 (natChars (m % 10000000))⟩

/-! ### Grid index (`formatGridId`, `computeGridId`, `generateKey`) -/

/-- `G_RRR_CCC` with both fields zero-padded to width (at least) 3
(`TerrainStorageEngine::formatGridId`). -/
def formatGridId (row col : ℤ) : String :=
  ⟨'G' :: '_' :: padChars '0' 3 (intChars row) ++ '_' :: padChars '0' 3 (intChars col)⟩

/-- Engine parameters and the grid geometry derived in the constructor. -/
structure TerrainEngine where
  min_lon : ℚ
  min_lat : ℚ
  max_lon : ℚ
  max_lat : ℚ
  grid_size : ℚ
  grid_rows : ℤ
  grid_cols : ℤ
  cache_capacity : ℕ
  deriving Repr, DecidableEq

/-- The field computations of the `TerrainStorageEngine` constructor:
`grid_cols = (int)ceil((max_lon - min_lon) / grid_size)` and likewise for
rows. -/
def engineOf (min_lon min_lat max_lon max_lat grid_size : ℚ) (cap : ℕ) : TerrainEngine :=
  { min_lon := min_lon, min_lat := min_lat, max_lon := max_lon, max_lat := max_lat
    grid_size := grid_size
    grid_rows := ⌈(max_lat - min_lat) / grid_size⌉
    grid_cols := ⌈(max_lon - min_lon) / grid_size⌉
    cache_capacity := cap }

/-- The constructor including its validity check: it throws exactly when
`grid_size <= 0.0`. -/
def mkEngine (min_lon min_lat max_lon max_lat grid_size : ℚ) (cap : ℕ) :
    Except String TerrainEngine :=
  if grid_size ≤ 0 then .error "Grid size must be positive"
  else .ok (engineOf min_lon min_lat max_lon max_lat grid_size cap)

/-- `TerrainStorageEngine::isWithinBounds`. -/
def isWithinBounds (e : TerrainEngine) (lon lat : ℚ) : Bool :=
  e.min_lon ≤ lon && lon ≤ e.max_lon && e.min_lat ≤ lat && lat ≤ e.max_lat

/-- `TerrainStorageEngine::lonToGridCol`: clamp the coordinate into the bounds,
then truncate the scaled offset. -/
def lonToGridCol (e : TerrainEngine) (lon : ℚ) : ℤ :=
  truncQ ((max e.min_lon (min e.max_lon lon) - e.min_lon) / e.grid_size)

/-- `TerrainStorageEngine::latToGridRow`. -/
def latToGridRow (e : TerrainEngine) (lat : ℚ) : ℤ :=
  truncQ ((max e.min_lat (min e.max_lat lat) - e.min_lat) / e.grid_size)

/-- `TerrainStorageEngine::computeGridId`. -/
def computeGridId (e : TerrainEngine) (lon lat : ℚ) : String :=
  formatGridId (latToGridRow e lat) (lonToGridCol e lon)

/-- `TerrainStorageEngine::generateKey`: `gid|lon|lat` with 7 fixed fractional
digits. -/
def generateKey (lon lat : ℚ) (gid : String) : String :=
  gid ++ "|" ++ fmt7 lon ++ "|" ++ fmt7 lat

/-- The engine of the test fixture: Beijing area, cell 0.01°, cache 500. -/
def beijingE : TerrainEngine := engineOf 116.0 39.0 117.5 41.0 0.01 500

example : beijingE.grid_cols = 150 := by with_unfolding_all decide
example : beijingE.grid_rows = 200 := by with_unfolding_all decide
example : computeGridId beijingE 116.405 39.905 = "G_090_040" := by with_unfolding_all decide
example : computeGridId beijingE 116.0 39.0 = "G_000_000" := by with_unfolding_all decide
example : computeGridId beijingE 117.499 40.999 = "G_199_149" := by with_unfolding_all decide
example : computeGridId beijingE 117.5 41.0 = "G_200_150" := by with_unfolding_all decide
example : fmt7 116.405 = "116.4050000" := by with_unfolding_all decide
example : generateKey 116.405 39.905 "G_090_040" = "G_090_040|116.4050000|39.9050000" := by
  with_unfolding_all decide
example : strLt "G_090_040|" "G_090_040|116.4050000|39.9050000" = true := by
  with_unfolding_all decide

/-! ### Association-list maps (for the LevelDB store and `std::unordered_map`) -/

/-- Insert-or-replace on an association list; models both `db->Put` at the store
level and `data[key] = value` on the cached cell's `unordered_map`. -/
def mapInsert : List (String × String) → String → String → List (String × String)
  | [], k, v => [(k, v)]
  | (k', v') :: rest, k, v =>
    if k' = k then (k, v) :: rest else (k', v') :: mapInsert rest k v

/-- First-match lookup; models `db->Get` / `unordered_map::find`. -/
def mapFind : List (String × String) → String → Option String
  | [], _ => none
  | (k', v') :: rest, k => if k' = k then some v' else mapFind rest k

/-- The LevelDB contents: an association list with unique keys (iteration
order abstracted; the claims below are set-level). -/
abbrev Store := List (String × String)

/-- `LevelDBManager::rangeQuery(gid ++ "|", gid ++ "|~", cb)`: all entries with
key in the half-open byte-lex range of cell `gid`. -/
def dbCellScan (st : Store) (gid : String) : List (String × String) :=
  st.filter fun kv => inCellRange kv.1 gid

/-- Apply a committed `BatchWriter` (a list of staged puts) to the store;
LevelDB applies the batch atomically in order. -/
def applyWrites (st : Store) (w : List (String × String)) : Store :=
  w.foldl (fun s kv => mapInsert s kv.1 kv.2) st

/-! ### Grid LRU cache (`GridLRUCache`) -/

/-- A cached cell: its id and the full key→value contents
(`GridCacheItem`). -/
structure GridCacheItem where
  grid_id : String
  data : List (String × String)
  deriving Repr, DecidableEq

/-- The LRU cache: entries in recency order, front = most recently used
(mirrors `access_list_` plus `cache_map_`). -/
abbrev Cache := List (String × GridCacheItem)

/-- Effective capacity: the constructor substitutes 1000 when the requested
capacity is zero (`capacity > 0 ? capacity : 1000`). -/
def effCap (c : ℕ) : ℕ := if 0 < c then c else 1000

/-- First entry with the given id (`cache_map_.find`). -/
def cacheFind : Cache → String → Option GridCacheItem
  | [], _ => none
  | (g, it) :: rest, gid => if g = gid then some it else cacheFind rest gid

/-- Remove the first entry with the given id. -/
def cacheRemove : Cache → String → Cache
  | [], _ => []
  | (g, it) :: rest, gid => if g = gid then rest else (g, it) :: cacheRemove rest gid

/-- `GridLRUCache::get`: on a hit, splice the entry to the front (promote to
most-recent) and return the item. -/
def cacheGet (c : Cache) (gid : String) : Option GridCacheItem × Cache :=
  match cacheFind c gid with
  | none => (none, c)
  | some it => (some it, (gid, it) :: cacheRemove c gid)

/-- `GridLRUCache::put`: replace (and promote) an existing entry, else evict
the least-recently-used entry when full, then push the new entry to the
front. -/
def cachePut (c : Cache) (gid : String) (item : GridCacheItem) (cap : ℕ) : Cache :=
  if (cacheFind c gid).isSome then (gid, item) :: cacheRemove c gid
  else if cap ≤ c.length then (gid, item) :: c.dropLast
  else (gid, item) :: c

/-- In-place mutation of a resident cell's mapping through the shared handle
(`cache_item->data[key] = value`): rewrite the first entry with this id. -/
def cacheUpdateData : Cache → String → String → String → Cache
  | [], _, _, _ => []
  | (g, it) :: rest, gid, k, v =>
    if g = gid then (g, { it with data := mapInsert it.data k v }) :: rest
    else (g, it) :: cacheUpdateData rest gid k v

/-! ### Engine state and operations -/

/-- The mutable state a `TerrainStorageEngine` closes over: the shared LevelDB
store and its own grid cache. -/
structure EState where
  store : Store
  cache : Cache
  deriving Repr, DecidableEq

/-- Fresh database and empty cache. -/
def initES : EState := ⟨[], []⟩

/-- Key parsing (`TerrainStorageEngine::parseKey` + `std::stod`): split at the
first two `|` and read each coordinate as a decimal numeral prefix. -/
def splitBar : List Char → Option (List Char × List Char)
  | [] => none
  | c :: cs =>
    if c = '|' then some ([], cs)
    else (splitBar cs).map fun p => (c :: p.1, p.2)

/-- Is this an ASCII decimal digit? -/
def isDig (c : Char) : Bool := '0' ≤ c && c ≤ '9'

/-- Numeric value of a digit string (most significant first). -/
def digsVal (l : List Char) : ℕ := l.foldl (fun a c => 10 * a + (c.toNat - 48)) 0

/-- `std::stod` on the fixed-notation decimals the engine writes: an optional
sign, an integer part, an optional fractional part; trailing input is ignored;
no digits at all is a failure (`std::invalid_argument`). -/
def parseRatPrefix (l : List Char) : Option ℚ :=
  let (sgn, l1) : ℚ × List Char :=
    match l with
    | '-' :: r => (-1, r)
    | '+' :: r => (1, r)
    | _ => (1, l)
  let ds := l1.takeWhile isDig
  let l2 := l1.dropWhile isDig
  match l2 with
  | '.' :: r =>
    let fs := r.takeWhile isDig
    if ds.isEmpty && fs.isEmpty then none
    else some (sgn * ((digsVal ds : ℚ) + (digsVal fs : ℚ) / (10 : ℚ) ^ fs.length))
  | _ => if ds.isEmpty then none else some (sgn * (digsVal ds : ℚ))

/-- `TerrainStorageEngine::parseKey`. -/
def parseKey (k : String) : Option (ℚ × ℚ) :=
  match splitBar k.data with
  | none => none
  | some (_, rest) =>
    match splitBar rest with
    | none => none
    | some (lonCs, latCs) =>
      match parseRatPrefix lonCs, parseRatPrefix latCs with
      | some lo, some la => some (lo, la)
      | _, _ => none

/-- `TerrainStorageEngine::loadGridToCache`: build the cell's mapping from a
store range scan, install it in the cache, and return the (never null) shared
item. The `Option` mirrors the `shared_ptr` result type. -/
def loadGridToCache (e : TerrainEngine) (s : EState) (gid : String) :
    EState × Option GridCacheItem :=
  let item : GridCacheItem :=
    ⟨gid, (dbCellScan s.store gid).foldl (fun m kv => mapInsert m kv.1 kv.2) []⟩
  ({ s with cache := cachePut s.cache gid item (effCap e.cache_capacity) }, some item)

/-- `TerrainStorageEngine::put`: bounds check (throwing on violation), update
the cell's mapping when resident, then write to the store. -/
def tPut (e : TerrainEngine) (s : EState) (lon lat : ℚ) (v : String) :
    Except String EState :=
  if isWithinBounds e lon lat then
    let gid := computeGridId e lon lat
    let key := generateKey lon lat gid
    let (item?, c1) := cacheGet s.cache gid
    let c2 := if item?.isSome then cacheUpdateData c1 gid key v else c1
    .ok { store := mapInsert s.store key v, cache := c2 }
  else .error "out of range"

/-- `TerrainStorageEngine::get`: bounds check (silent absent), cache lookup,
store fallback, and unconditional warm-on-miss of the whole cell. -/
def tGet (e : TerrainEngine) (s : EState) (lon lat : ℚ) : Option String × EState :=
  if isWithinBounds e lon lat then
    let gid := computeGridId e lon lat
    let key := generateKey lon lat gid
    match cacheGet s.cache gid with
    | (some item, c1) =>
      match mapFind item.data key with
      | some v => (some v, { s with cache := c1 })
      | none =>
        match mapFind s.store key with
        | some v => (some v, { s with cache := cacheUpdateData c1 gid key v })
        | none => (none, { s with cache := c1 })
    | (none, c1) =>
      match mapFind s.store key with
      | some v => (some v, (loadGridToCache e { s with cache := c1 } gid).1)
      | none => (none, (loadGridToCache e { s with cache := c1 } gid).1)
  else (none, s)

/-- The loop body of `TerrainStorageEngine::batchPut`: walk the points,
validating bounds, updating resident cells in place and staging the store
writes; a violation aborts before the commit (`false`), leaving the staged
writes unapplied. -/
def batchPutGo (e : TerrainEngine) :
    List (ℚ × ℚ × String) → Cache → List (String × String) →
      Cache × List (String × String) × Bool
  | [], c, w => (c, w, true)
  | (lon, lat, v) :: rest, c, w =>
    if isWithinBounds e lon lat then
      let gid := computeGridId e lon lat
      let key := generateKey lon lat gid
      let (item?, c1) := cacheGet c gid
      let c2 := if item?.isSome then cacheUpdateData c1 gid key v else c1
      batchPutGo e rest c2 (w ++ [(key, v)])
    else (c, w, false)

/-- `TerrainStorageEngine::batchPut`: the `Bool` is `false` when an
out-of-bounds point threw; the batch commits only on success. -/
def tBatchPut (e : TerrainEngine) (s : EState) (data : List (ℚ × ℚ × String)) :
    EState × Bool :=
  match batchPutGo e data s.cache [] with
  | (c, w, true) => ({ store := applyWrites s.store w, cache := c }, true)
  | (c, _, false) => ({ s with cache := c }, false)

/-- Filter a cell's contents by the exact point-in-rectangle test of
`processGrid`, skipping unparsable keys. -/
def gridFilterData (data : List (String × String)) (qminlon qminlat qmaxlon qmaxlat : ℚ) :
    List (ℚ × ℚ × String) :=
  data.filterMap fun kv =>
    match parseKey kv.1 with
    | some (lo, la) =>
      if qminlon ≤ lo && lo ≤ qmaxlon && qminlat ≤ la && la ≤ qmaxlat then
        some (lo, la, kv.2)
      else none
    | none => none

/-- The result of `processGrid`: the updated state, the callback invocations,
and whether the direct-store fallback branch ran. -/
structure PGOut where
  state : EState
  found : List (ℚ × ℚ × String)
  usedFallback : Bool
  deriving Repr

/-- `TerrainStorageEngine::processGrid`: serve the cell from cache, loading it
on a miss; the fallback branch scans the store directly when the loaded item
is null. -/
def processGrid (e : TerrainEngine) (s : EState) (gid : String)
    (qminlon qminlat qmaxlon qmaxlat : ℚ) : PGOut :=
  match cacheGet s.cache gid with
  | (some item, c1) =>
    ⟨{ s with cache := c1 }, gridFilterData item.data qminlon qminlat qmaxlon qmaxlat, false⟩
  | (none, c1) =>
    match loadGridToCache e { s with cache := c1 } gid with
    | (s', some item) =>
      ⟨s', gridFilterData item.data qminlon qminlat qmaxlon qmaxlat, false⟩
    | (s', none) =>
      ⟨s', gridFilterData (dbCellScan s'.store gid) qminlon qminlat qmaxlon qmaxlat, true⟩

/-- Inclusive integer interval `[a, b]` as a list. -/
def intRange (a b : ℤ) : List ℤ := (List.range (b + 1 - a).toNat).map fun i => a + i

/-- The covered cell rectangle of `rangeQuery`, row-major. -/
def coveredCells (e : TerrainEngine) (qminlon qminlat qmaxlon qmaxlat : ℚ) :
    List (ℤ × ℤ) :=
  let startCol := max 0 (lonToGridCol e qminlon)
  let endCol := min (e.grid_cols - 1) (lonToGridCol e qmaxlon)
  let startRow := max 0 (latToGridRow e qminlat)
  let endRow := min (e.grid_rows - 1) (latToGridRow e qmaxlat)
  (intRange startRow endRow).flatMap fun r => (intRange startCol endCol).map fun c => (r, c)

/-- `TerrainStorageEngine::rangeQuery`: process every covered cell in
row-major order, accumulating the callback invocations. -/
def tRangeQuery (e : TerrainEngine) (s : EState) (qminlon qminlat qmaxlon qmaxlat : ℚ) :
    EState × List (ℚ × ℚ × String) :=
  (coveredCells e qminlon qminlat qmaxlon qmaxlat).foldl
    (fun acc rc =>
      let pg := processGrid e acc.1 (formatGridId rc.1 rc.2) qminlon qminlat qmaxlon qmaxlat
      (pg.state, acc.2 ++ pg.found))
    (s, [])

/-- `TerrainStorageEngine::preloadGrid`. -/
def tPreloadGrid (e : TerrainEngine) (s : EState) (gid : String) : EState :=
  (loadGridToCache e s gid).1

/-- `TerrainStorageEngine::evictGridFromCache`. -/
def tEvictGrid (s : EState) (gid : String) : EState :=
  { s with cache := cacheRemove s.cache gid }

/-- `TerrainStorageEngine::clearCache`. -/
def tClearCache (s : EState) : EState := { s with cache := [] }

/-- The engine operations a client can run (the quiescent, sequential
fragment). -/
inductive TOp where
  | put (lon lat : ℚ) (v : String)
  | batchPut (data : List (ℚ × ℚ × String))
  | get (lon lat : ℚ)
  | rangeQuery (qminlon qminlat qmaxlon qmaxlat : ℚ)
  | preloadGrid (gid : String)
  | evictGrid (gid : String)
  | clearCache

/-- State effect of one operation (a failed `put` throws before mutating; a
failed `batchPut` leaves its partial cache updates behind, as the C++ does). -/
def stepOp (e : TerrainEngine) (s : EState) : TOp → EState
  | .put lon lat v =>
    match tPut e s lon lat v with
    | .ok s' => s'
    | .error _ => s
  | .batchPut data => (tBatchPut e s data).1
  | .get lon lat => (tGet e s lon lat).2
  | .rangeQuery a b c d => (tRangeQuery e s a b c d).1
  | .preloadGrid gid => tPreloadGrid e s gid
  | .evictGrid gid => tEvictGrid s gid
  | .clearCache => tClearCache s

/-- Run a sequence of operations from a state. -/
def runOps (e : TerrainEngine) (s : EState) : List TOp → EState
  | [] => s
  | op :: rest => runOps e (stepOp e s op) rest

/-- `true` when the operation cannot throw mid-way: `batchPut` with every
point in bounds (other operations never leave a half-applied state). -/
def opOK (e : TerrainEngine) : TOp → Bool
  | .batchPut data => data.all fun p => isWithinBounds e p.1 p.2.1
  | _ => true

/-- The committed store writes of an operation history: each successful `put`
and each committed batch contributes its generated key and value in order. -/
def writesOf (e : TerrainEngine) : List TOp → List (String × String)
  | [] => []
  | .put lon lat v :: rest =>
    (if isWithinBounds e lon lat then
      [(generateKey lon lat (computeGridId e lon lat), v)]
     else []) ++ writesOf e rest
  | .batchPut data :: rest =>
    (if data.all (fun p => isWithinBounds e p.1 p.2.1) then
      data.map fun p => (generateKey p.1 p.2.1 (computeGridId e p.1 p.2.1), p.2.2)
     else []) ++ writesOf e rest
  | _ :: rest => writesOf e rest

/-! ### Worker pool (`AdvancedThreadPool`) task queue -/

/-- Task priorities; the enum values are `HIGH = 0`, `NORMAL = 1`, `LOW = 2`. -/
inductive TaskPriority where
  | high
  | normal
  | low
  deriving Repr, DecidableEq

/-- `static_cast<int>` of the priority enum. -/
def priVal : TaskPriority → ℕ
  | .high => 0
  | .normal => 1
  | .low => 2

/-- A queued task: its priority and an identifying payload (the type-erased
callable is opaque to the queue). -/
structure TaskItem where
  priority : TaskPriority
  payload : ℕ
  deriving Repr, DecidableEq

/-- `AdvancedThreadPool::TaskCompare`: `a` sorts below `b` in the max-heap
exactly when `a`'s enum value is larger (so the smallest value — HIGH — is on
top). -/
def taskCompare (a b : TaskItem) : Bool := priVal b.priority < priVal a.priority

/-- The element `std::priority_queue::top()` returns: a maximal element with
respect to `TaskCompare` (which of several tied elements is returned is
unspecified; we model the first such element). -/
def heapTopElem (x : TaskItem) (xs : List TaskItem) : TaskItem :=
  xs.foldl (fun b t => if taskCompare b t then t else b) x

/-- The element `top()` returns is one of the queued tasks. -/
theorem heapTopElem_mem (x : TaskItem) (xs : List TaskItem) :
    heapTopElem x xs ∈ x :: xs := by
  induction xs generalizing x with
  | nil => simp [heapTopElem]
  | cons t ts ih =>
    have h := ih (if taskCompare x t then t else x)
    simp only [heapTopElem, List.foldl_cons] at h ⊢
    rcases List.mem_cons.1 h with h' | h'
    · rw [h']
      split <;> simp
    · simp [h']

/-- Repeatedly `top()`+`pop()` until the queue is empty: the order in which
idle workers drain the queue when no new tasks arrive. -/
def drainQueue : List TaskItem → List TaskItem
  | [] => []
  | x :: xs =>
    let m := heapTopElem x xs
    m :: drainQueue ((x :: xs).erase m)
termination_by l => l.length
decreasing_by
  simp only [List.length_erase_of_mem (heapTopElem_mem x xs)]
  simp

/-- One worker's queue interaction after `shutdown` flipped `running_` to
`false` (`worker_routine` lines 238–246): exit only when the queue is empty,
otherwise dequeue the top task and execute it. -/
def workerShutdownStep (queue : List TaskItem) : Option TaskItem × List TaskItem :=
  match queue with
  | [] => (none, [])
  | x :: xs =>
    let m := heapTopElem x xs
    (some m, (x :: xs).erase m)

/-- After `shutdown`, each of the `w` workers performs its final loop
iteration in turn (serialised by the queue mutex): every worker that observes
a non-empty queue executes one more task; the tasks still queued afterwards
are the dropped ones. -/
def shutdownDrain : ℕ → List TaskItem → List TaskItem × List TaskItem
  | 0, q => ([], q)
  | _ + 1, [] => ([], [])
  | w + 1, x :: xs =>
    let m := heapTopElem x xs
    let r := shutdownDrain w ((x :: xs).erase m)
    (m :: r.1, r.2)

/-! ### Byte-lexicographic order lemmas -/

theorem bytesLt_append_same (p xs ys : List Char) :
    bytesLt (p ++ xs) (p ++ ys) = bytesLt xs ys := by
  induction p with
  | nil => rfl
  | cons a as ih => simp [bytesLt, ih]

theorem bytesLt_proper_prefix (p xs : List Char) (h : xs ≠ []) :
    bytesLt p (p ++ xs) = true := by
  have h1 : bytesLt (p ++ []) (p ++ xs) = bytesLt [] xs := bytesLt_append_same p [] xs
  rw [List.append_nil] at h1
  rw [h1]
  cases xs with
  | nil => exact absurd rfl h
  | cons c cs => rfl

theorem bytesLt_head_lt {a b : Char} (h : a.toNat < b.toNat) (as bs : List Char) :
    bytesLt (a :: as) (b :: bs) = true := by
  simp [bytesLt, h]

/-! ### Character facts about the generated keys -/

theorem digitChar_toNat {d : ℕ} (h : d < 10) :
    48 ≤ (Nat.digitChar d).toNat ∧ (Nat.digitChar d).toNat ≤ 57 := by
  interval_cases d <;> decide

theorem natCharsAux_mem {fuel n : ℕ} {c : Char} (h : c ∈ natCharsAux fuel n) :
    48 ≤ c.toNat ∧ c.toNat ≤ 57 := by
  induction fuel generalizing n with
  | zero => simp [natCharsAux] at h
  | succ f ih =>
    simp only [natCharsAux] at h
    split at h
    · simp at h
    · rcases List.mem_append.1 h with h' | h'
      · exact ih h'
      · simp only [List.mem_singleton] at h'
        subst h'
        exact digitChar_toNat (Nat.mod_lt _ (by omega))

theorem natChars_mem {n : ℕ} {c : Char} (h : c ∈ natChars n) :
    48 ≤ c.toNat ∧ c.toNat ≤ 57 := by
  unfold natChars at h
  split at h
  · simp only [List.mem_singleton] at h
    subst h
    decide
  · exact natCharsAux_mem h

theorem natChars_ne_nil (n : ℕ) : natChars n ≠ [] := by
  unfold natChars
  split
  · simp
  · next hn =>
    cases n with
    | zero => exact absurd rfl hn
    | succ m =>
      simp only [natCharsAux, if_neg hn]
      intro hcontra
      exact absurd (List.append_eq_nil.1 hcontra).2 (by simp)

theorem padChars_mem {ch c : Char} {w : ℕ} {l : List Char} (h : c ∈ padChars ch w l) :
    c = ch ∨ c ∈ l := by
  unfold padChars at h
  rcases List.mem_append.1 h with h' | h'
  · exact Or.inl (List.eq_of_mem_replicate h')
  · exact Or.inr h'

theorem fmt7_data_eq (q : ℚ) :
    (fmt7 q).data =
      (if q < 0 then ['-'] else []) ++
        natChars ((⌊|q| * 10000000 + 1 / 2⌋).toNat / 10000000) ++
          '.' :: padChars '0' 7 (natChars ((⌊|q| * 10000000 + 1 / 2⌋).toNat % 10000000)) := rfl

/-- Every character of a rendered coordinate is `-`, `.` or a digit: code
points 45–57, in particular below `|` (124) and `~` (126). -/
theorem fmt7_mem {q : ℚ} {c : Char} (h : c ∈ (fmt7 q).data) :
    45 ≤ c.toNat ∧ c.toNat ≤ 57 := by
  rw [fmt7_data_eq] at h
  rcases List.mem_append.1 h with h1 | h2
  · rcases List.mem_append.1 h1 with h3 | h4
    · split at h3
      · simp only [List.mem_singleton] at h3
        subst h3
        decide
      · simp at h3
    · have := natChars_mem h4
      omega
  · rcases List.mem_cons.1 h2 with h3 | h4
    · subst h3
      decide
    · rcases padChars_mem h4 with h5 | h5
      · subst h5
        decide
      · have := natChars_mem h5
        omega

theorem fmt7_data_ne_nil (q : ℚ) : (fmt7 q).data ≠ [] := by
  rw [fmt7_data_eq]
  intro h
  rcases List.append_eq_nil.1 h with ⟨h1, h2⟩
  simp at h2

/-- The rendered key tail of a point sits strictly below the `~` sentinel. -/
theorem bytesLt_fmt7_tail (q : ℚ) (rest : List Char) :
    bytesLt ((fmt7 q).data ++ rest) ['~'] = true := by
  obtain ⟨c, t, hct⟩ := List.exists_cons_of_ne_nil (fmt7_data_ne_nil q)
  have hc : c ∈ (fmt7 q).data := by rw [hct]; exact List.mem_cons_self c t
  have hb := fmt7_mem hc
  have hlt : c.toNat < ('~').toNat := by
    have h126 : ('~').toNat = 126 := by decide
    omega
  rw [hct, List.cons_append]
  exact bytesLt_head_lt hlt _ _

/-- Key layout: the data of a generated key. -/
theorem generateKey_data (lon lat : ℚ) (gid : String) :
    (generateKey lon lat gid).data =
      gid.data ++ '|' :: ((fmt7 lon).data ++ '|' :: (fmt7 lat).data) := by
  unfold generateKey
  rw [String.data_append, String.data_append, String.data_append, String.data_append]
  have hb : ("|" : String).data = ['|'] := rfl
  rw [hb]
  simp

/-- C5 (claim): each generated key of an in-bounds point lies strictly inside
the half-open byte-lexicographic scan range `[cellId ++ "|", cellId ++ "|~")`
of its cell. -/
theorem c5_key_in_cell_range (e : TerrainEngine) (lon lat : ℚ)
    (h : isWithinBounds e lon lat = true) :
    strLt (computeGridId e lon lat ++ "|")
        (generateKey lon lat (computeGridId e lon lat)) = true ∧
      strLt (generateKey lon lat (computeGridId e lon lat))
        (computeGridId e lon lat ++ "|~") = true := by
  set gid := computeGridId e lon lat
  have hbar : ("|" : String).data = ['|'] := rfl
  have hbartilde : ("|~" : String).data = ['|', '~'] := rfl
  constructor
  · show bytesLt _ _ = true
    rw [String.data_append, generateKey_data, hbar]
    have h1 : gid.data ++ '|' :: ((fmt7 lon).data ++ '|' :: (fmt7 lat).data) =
        (gid.data ++ ['|']) ++ ((fmt7 lon).data ++ '|' :: (fmt7 lat).data) := by
      simp
    rw [h1]
    apply bytesLt_proper_prefix
    simp
  · show bytesLt _ _ = true
    rw [String.data_append, generateKey_data, hbartilde]
    have h1 : gid.data ++ '|' :: ((fmt7 lon).data ++ '|' :: (fmt7 lat).data) =
        (gid.data ++ ['|']) ++ ((fmt7 lon).data ++ '|' :: (fmt7 lat).data) := by
      simp
    have h2 : gid.data ++ ['|', '~'] = (gid.data ++ ['|']) ++ ['~'] := by
      simp
    rw [h1, h2, bytesLt_append_same]
    exact bytesLt_fmt7_tail lon ('|' :: (fmt7 lat).data)

/-- Witness for C5 at a concrete in-bounds point of the Beijing fixture. -/
theorem c5_witness :
    isWithinBounds beijingE 116.405 39.905 = true ∧
      (strLt (computeGridId beijingE 116.405 39.905 ++ "|")
          (generateKey 116.405 39.905 (computeGridId beijingE 116.405 39.905)) = true ∧
        strLt (generateKey 116.405 39.905 (computeGridId beijingE 116.405 39.905))
          (computeGridId beijingE 116.405 39.905 ++ "|~") = true) :=
  ⟨by with_unfolding_all decide,
    c5_key_in_cell_range beijingE 116.405 39.905 (by with_unfolding_all decide)⟩

/-! ### C3: constructor validation -/

/-- C3 counterexample: a configuration with `min_lon > max_lon` (and hence
violating the claimed precondition `min_lon < max_lon`) is accepted by the
constructor, because the code only validates `grid_size`. -/
theorem c3_counterexample :
    ∃ e, mkEngine 1 0 0 1 1 10 = .ok e := by
  exact ⟨engineOf 1 0 0 1 1 10, by with_unfolding_all rfl⟩

/-- C3 (amended): construction fails exactly when `cell_size_deg ≤ 0`; the
bounds ordering and the `rows, cols ≤ 1000` cap are not checked. -/
theorem c3_amended (a b c d g : ℚ) (cap : ℕ) :
    (∃ e, mkEngine a b c d g cap = .ok e) ↔ 0 < g := by
  unfold mkEngine
  constructor
  · rintro ⟨e', he⟩
    by_contra hg
    rw [if_pos (not_lt.1 hg)] at he
    exact Except.noConfusion he
  · intro hg
    refine ⟨engineOf a b c d g cap, ?_⟩
    rw [if_neg (not_le.2 hg)]

/-! ### C4: grid id computation -/

/-- C4 counterexample: at the exact upper-bound corner of the Beijing fixture
the computed column equals `grid_cols` (and the row equals `grid_rows`), so the
returned indices are *not* clamped into `[0, cols) × [0, rows)` as claimed. -/
theorem c4_counterexample :
    computeGridId beijingE 117.5 41.0 = "G_200_150" ∧
      lonToGridCol beijingE 117.5 = beijingE.grid_cols ∧
      latToGridRow beijingE 41.0 = beijingE.grid_rows ∧
      ¬(lonToGridCol beijingE 117.5 < beijingE.grid_cols) := by
  refine ⟨?_, ?_, ?_, ?_⟩ <;> with_unfolding_all decide

/-- C4 (amended): `computeGridId` clamps the *coordinate* (not the index) and
floors the scaled offset; the indices land in the closed ranges `[0, cols]` /
`[0, rows]` — the upper index is attained at the exact bounds `max_lon` /
`max_lat` — and the three Beijing examples evaluate as listed. -/
theorem c4_amended (a b c d g : ℚ) (cap : ℕ) (hg : 0 < g) (hlon : a ≤ c)
    (hlat : b ≤ d) (lon lat : ℚ) :
    computeGridId (engineOf a b c d g cap) lon lat =
        formatGridId ⌊(max b (min d lat) - b) / g⌋ ⌊(max a (min c lon) - a) / g⌋ ∧
      0 ≤ lonToGridCol (engineOf a b c d g cap) lon ∧
      lonToGridCol (engineOf a b c d g cap) lon ≤ (engineOf a b c d g cap).grid_cols ∧
      0 ≤ latToGridRow (engineOf a b c d g cap) lat ∧
      latToGridRow (engineOf a b c d g cap) lat ≤ (engineOf a b c d g cap).grid_rows ∧
      computeGridId beijingE 116.405 39.905 = "G_090_040" ∧
      computeGridId beijingE 116.0 39.0 = "G_000_000" ∧
      computeGridId beijingE 117.499 40.999 = "G_199_149" := by
  have hlonNN : (0 : ℚ) ≤ (max a (min c lon) - a) / g :=
    div_nonneg (sub_nonneg.2 (le_max_left _ _)) hg.le
  have hlatNN : (0 : ℚ) ≤ (max b (min d lat) - b) / g :=
    div_nonneg (sub_nonneg.2 (le_max_left _ _)) hg.le
  have hcol : lonToGridCol (engineOf a b c d g cap) lon = ⌊(max a (min c lon) - a) / g⌋ := by
    unfold lonToGridCol truncQ engineOf
    rw [if_neg (by simpa using not_lt.2 hlonNN)]
  have hrow : latToGridRow (engineOf a b c d g cap) lat = ⌊(max b (min d lat) - b) / g⌋ := by
    unfold latToGridRow truncQ engineOf
    rw [if_neg (by simpa using not_lt.2 hlatNN)]
  have hclampLon : max a (min c lon) ≤ c := max_le hlon (min_le_left _ _)
  have hclampLat : max b (min d lat) ≤ d := max_le hlat (min_le_left _ _)
  refine ⟨?_, ?_, ?_, ?_, ?_, ?_, ?_, ?_⟩
  · unfold computeGridId
    rw [hcol, hrow]
  · rw [hcol]
    exact Int.floor_nonneg.2 hlonNN
  · rw [hcol]
    show _ ≤ (engineOf a b c d g cap).grid_cols
    unfold engineOf
    calc ⌊(max a (min c lon) - a) / g⌋ ≤ ⌊(c - a) / g⌋ :=
          Int.floor_le_floor
            (div_le_div_of_nonneg_right (sub_le_sub_right hclampLon a) hg.le)
      _ ≤ ⌈(c - a) / g⌉ := Int.floor_le_ceil _
  · rw [hrow]
    exact Int.floor_nonneg.2 hlatNN
  · rw [hrow]
    show _ ≤ (engineOf a b c d g cap).grid_rows
    unfold engineOf
    calc ⌊(max b (min d lat) - b) / g⌋ ≤ ⌊(d - b) / g⌋ :=
          Int.floor_le_floor
            (div_le_div_of_nonneg_right (sub_le_sub_right hclampLat b) hg.le)
      _ ≤ ⌈(d - b) / g⌉ := Int.floor_le_ceil _
  · with_unfolding_all decide
  · with_unfolding_all decide
  · with_unfolding_all decide

/-- Witness for the amended C4 at the Beijing configuration and an interior
point. -/
theorem c4_witness :
    (0 : ℚ) < 0.01 ∧ (116.0 : ℚ) ≤ 117.5 ∧ (39.0 : ℚ) ≤ 41.0 ∧
      (computeGridId (engineOf 116.0 39.0 117.5 41.0 0.01 500) 116.405 39.905 =
          formatGridId ⌊((max 39.0 (min 41.0 39.905) - 39.0) : ℚ) / 0.01⌋
            ⌊((max 116.0 (min 117.5 116.405) - 116.0) : ℚ) / 0.01⌋ ∧
        0 ≤ lonToGridCol (engineOf 116.0 39.0 117.5 41.0 0.01 500) 116.405 ∧
        lonToGridCol (engineOf 116.0 39.0 117.5 41.0 0.01 500) 116.405 ≤
          (engineOf 116.0 39.0 117.5 41.0 0.01 500).grid_cols ∧
        0 ≤ latToGridRow (engineOf 116.0 39.0 117.5 41.0 0.01 500) 39.905 ∧
        latToGridRow (engineOf 116.0 39.0 117.5 41.0 0.01 500) 39.905 ≤
          (engineOf 116.0 39.0 117.5 41.0 0.01 500).grid_rows ∧
        computeGridId beijingE 116.405 39.905 = "G_090_040" ∧
        computeGridId beijingE 116.0 39.0 = "G_000_000" ∧
        computeGridId beijingE 117.499 40.999 = "G_199_149") :=
  ⟨by with_unfolding_all decide, by with_unfolding_all decide, by with_unfolding_all decide,
    c4_amended 116.0 39.0 117.5 41.0 0.01 500 (by with_unfolding_all decide)
      (by with_unfolding_all decide) (by with_unfolding_all decide) 116.405 39.905⟩

/-! ### C8: strict priority dequeue order -/

/-- The task `top()` returns has the numerically smallest enum value — HIGH
before NORMAL before LOW — among all queued tasks. -/
theorem heapTopElem_min : ∀ (xs : List TaskItem) (x t : TaskItem), t ∈ x :: xs →
    priVal (heapTopElem x xs).priority ≤ priVal t.priority
  | [], x, t, ht => by
    simp only [List.mem_singleton] at ht
    subst ht
    exact le_refl _
  | y :: ys, x, t, ht => by
    have hpick : priVal (if taskCompare x y then y else x).priority ≤ priVal x.priority ∧
        priVal (if taskCompare x y then y else x).priority ≤ priVal y.priority := by
      by_cases hc : taskCompare x y = true
      · rw [if_pos hc]
        unfold taskCompare at hc
        simp only [decide_eq_true_eq] at hc
        exact ⟨hc.le, le_refl _⟩
      · rw [if_neg hc]
        unfold taskCompare at hc
        simp only [decide_eq_true_eq, not_lt] at hc
        exact ⟨le_refl _, hc⟩
    have hstep : heapTopElem x (y :: ys) = heapTopElem (if taskCompare x y then y else x) ys := by
      unfold heapTopElem
      simp [List.foldl_cons]
    rcases List.mem_cons.1 ht with h1 | h2
    · rw [h1, hstep]
      calc priVal (heapTopElem (if taskCompare x y then y else x) ys).priority
          ≤ priVal (if taskCompare x y then y else x).priority :=
            heapTopElem_min ys _ _ (List.mem_cons_self _ _)
        _ ≤ priVal x.priority := hpick.1
    · rcases List.mem_cons.1 h2 with h3 | h4
      · rw [h3, hstep]
        calc priVal (heapTopElem (if taskCompare x y then y else x) ys).priority
            ≤ priVal (if taskCompare x y then y else x).priority :=
              heapTopElem_min ys _ _ (List.mem_cons_self _ _)
          _ ≤ priVal y.priority := hpick.2
      · rw [hstep]
        exact heapTopElem_min ys _ t (List.mem_cons_of_mem _ h4)

theorem drainQueue_perm (l : List TaskItem) : (drainQueue l).Perm l := by
  have H : ∀ n (l : List TaskItem), l.length ≤ n → (drainQueue l).Perm l := by
    intro n
    induction n with
    | zero =>
      intro l hl
      cases l with
      | nil => simp [drainQueue]
      | cons x xs => simp at hl
    | succ m ih =>
      intro l hl
      cases l with
      | nil => simp [drainQueue]
      | cons x xs =>
        rw [drainQueue]
        have hm := heapTopElem_mem x xs
        have hlen : ((x :: xs).erase (heapTopElem x xs)).length ≤ m := by
          rw [List.length_erase_of_mem hm]
          simp only [List.length_cons] at hl ⊢
          omega
        exact ((ih _ hlen).cons _).trans (List.perm_cons_erase hm).symm
  exact H l.length l (le_refl _)

/-- Drain order is nondecreasing in priority value: a HIGH task is started no
later than any LOW task present alongside it. -/
theorem drainQueue_sorted (l : List TaskItem) :
    (drainQueue l).Pairwise fun a b => priVal a.priority ≤ priVal b.priority := by
  have H : ∀ n (l : List TaskItem), l.length ≤ n →
      (drainQueue l).Pairwise fun a b => priVal a.priority ≤ priVal b.priority := by
    intro n
    induction n with
    | zero =>
      intro l hl
      cases l with
      | nil => simp [drainQueue]
      | cons x xs => simp at hl
    | succ m ih =>
      intro l hl
      cases l with
      | nil => simp [drainQueue]
      | cons x xs =>
        rw [drainQueue]
        have hm := heapTopElem_mem x xs
        have hlen : ((x :: xs).erase (heapTopElem x xs)).length ≤ m := by
          rw [List.length_erase_of_mem hm]
          simp only [List.length_cons] at hl ⊢
          omega
        refine List.Pairwise.cons ?_ (ih _ hlen)
        intro b hb
        have hb2 : b ∈ (x :: xs).erase (heapTopElem x xs) :=
          (drainQueue_perm _).mem_iff.1 hb
        have hb3 : b ∈ x :: xs := List.mem_of_mem_erase hb2
        exact heapTopElem_min xs x b hb3
  exact H l.length l (le_refl _)

/-- C8 (claim): whenever a worker removes a task from a non-empty queue it is
one with the best (numerically least) priority then queued; draining the queue
is a permutation of its contents in nondecreasing priority order, so a HIGH
task enqueued alongside a LOW task starts no later than it; ties are broken
arbitrarily. -/
theorem c8_priority_dequeue (x : TaskItem) (xs : List TaskItem) :
    (∀ t ∈ x :: xs, priVal (heapTopElem x xs).priority ≤ priVal t.priority) ∧
      (drainQueue (x :: xs)).Pairwise
        (fun a b => priVal a.priority ≤ priVal b.priority) ∧
      (drainQueue (x :: xs)).Perm (x :: xs) :=
  ⟨fun t ht => heapTopElem_min xs x t ht, drainQueue_sorted _, drainQueue_perm _⟩

/-! ### C9: tasks queued at shutdown -/

/-- C9 counterexample: with one task still queued when `running_` flips to
`false`, the worker's final iteration dequeues and executes it (the exit guard
requires the queue to be empty), instead of dropping it with a broken
future as the claim states. -/
theorem c9_counterexample :
    (workerShutdownStep [⟨TaskPriority.normal, 0⟩]).1 = some ⟨TaskPriority.normal, 0⟩ := by
  rfl

/-- C9 (amended): on shutdown each worker performs one final dequeue if the
queue is non-empty and executes that task despite the shutdown; with `w`
workers the first `min w |q|` tasks (in priority order) are still executed,
and exactly the remaining tasks are dropped without execution. -/
theorem c9_amended (w : ℕ) (q : List TaskItem) :
    (shutdownDrain w q).1 = (drainQueue q).take w ∧
      (shutdownDrain w q).1.length = min w q.length ∧
      drainQueue (shutdownDrain w q).2 = (drainQueue q).drop w := by
  have H : ∀ n w (q : List TaskItem), q.length ≤ n →
      (shutdownDrain w q).1 = (drainQueue q).take w ∧
        (shutdownDrain w q).1.length = min w q.length ∧
        drainQueue (shutdownDrain w q).2 = (drainQueue q).drop w := by
    intro n
    induction n with
    | zero =>
      intro w q hq
      cases q with
      | nil => cases w <;> simp [shutdownDrain, drainQueue]
      | cons x xs => simp at hq
    | succ m ih =>
      intro w q hq
      cases w with
      | zero => simp [shutdownDrain]
      | succ w' =>
        cases q with
        | nil => simp [shutdownDrain, drainQueue]
        | cons x xs =>
          have hm := heapTopElem_mem x xs
          have hlen : ((x :: xs).erase (heapTopElem x xs)).length ≤ m := by
            rw [List.length_erase_of_mem hm]
            simp only [List.length_cons] at hq ⊢
            omega
          have hrec := ih w' ((x :: xs).erase (heapTopElem x xs)) hlen
          have herase : ((x :: xs).erase (heapTopElem x xs)).length = xs.length := by
            rw [List.length_erase_of_mem hm]
            simp
          refine ⟨?_, ?_, ?_⟩
          · show (heapTopElem x xs :: (shutdownDrain w' _).1) = _
            rw [drainQueue, List.take_succ_cons, hrec.1]
          · show (heapTopElem x xs :: (shutdownDrain w' _).1).length = _
            simp only [List.length_cons, hrec.2.1, herase]
            omega
          · show drainQueue (shutdownDrain w' _).2 = _
            rw [hrec.2.2, drainQueue, List.drop_succ_cons]
  exact H q.length w q (le_refl _)

/-! ### C10: the fallback branch of `processGrid` is dead -/

/-- `cachePut` always leaves the new entry at the front. -/
theorem cachePut_cons (c : Cache) (gid : String) (item : GridCacheItem) (cap : ℕ) :
    ∃ r, cachePut c gid item cap = (gid, item) :: r := by
  unfold cachePut
  split
  · exact ⟨_, rfl⟩
  · split
    · exact ⟨_, rfl⟩
    · exact ⟨_, rfl⟩

/-- C10 (implicit claim): `loadGridToCache` always returns a non-null item, so
the direct-store fallback branch of `processGrid` never runs, and after a cell
is processed it is resident in the LRU cache (so a query covering more cells
than the capacity evicts earlier ones). -/
theorem c10_fallback_unreachable (e : TerrainEngine) (s : EState) (gid : String)
    (a b c d : ℚ) :
    (loadGridToCache e s gid).2.isSome = true ∧
      (processGrid e s gid a b c d).usedFallback = false ∧
      cacheFind (processGrid e s gid a b c d).state.cache gid ≠ none := by
  refine ⟨rfl, ?_, ?_⟩
  · unfold processGrid cacheGet
    cases hf : cacheFind s.cache gid <;> simp [loadGridToCache]
  · unfold processGrid cacheGet
    cases hf : cacheFind s.cache gid
    · simp only [loadGridToCache]
      obtain ⟨r, hr⟩ := cachePut_cons s.cache gid
        ⟨gid, (dbCellScan s.store gid).foldl (fun m kv => mapInsert m kv.1 kv.2) []⟩
        (effCap e.cache_capacity)
      simp [hr, cacheFind]
    · simp [cacheFind]

/-! ### C7: the LRU resident-set invariant -/

/-- A client-visible access to the `GridLRUCache`. -/
inductive CacheOp where
  | get (gid : String)
  | put (gid : String) (item : GridCacheItem)

/-- One access, also recording the id in the touch history (most recent first)
when the access touches an entry: every `put`, and every `get` that hits. -/
def lruStep (cap : ℕ) (st : Cache × List String) : CacheOp → Cache × List String
  | .get gid =>
    match cacheGet st.1 gid with
    | (some _, c') => (c', gid :: st.2)
    | (none, _) => st
  | .put gid item => (cachePut st.1 gid item (effCap cap), gid :: st.2)

/-- Run an access sequence against an initially empty cache of the requested
capacity. -/
def lruRun (cap : ℕ) (ops : List CacheOp) : Cache × List String :=
  ops.foldl (lruStep cap) ([], [])

/-- Keep the first (most recent) occurrence of every id. -/
def dedupFirst : List String → List String
  | [] => []
  | x :: xs => x :: (dedupFirst xs).filter (· ≠ x)

/-- Remove the first occurrence of a string. -/
def removeStr : List String → String → List String
  | [], _ => []
  | x :: xs, a => if x = a then xs else x :: removeStr xs a

theorem dedupFirst_nodup (l : List String) : (dedupFirst l).Nodup := by
  induction l with
  | nil => simp [dedupFirst]
  | cons x xs ih =>
    simp only [dedupFirst, List.nodup_cons]
    refine ⟨fun hx => ?_, ih.filter _⟩
    have := List.of_mem_filter hx
    simp at this

theorem cacheRemove_ids (c : Cache) (gid : String) :
    (cacheRemove c gid).map Prod.fst = removeStr (c.map Prod.fst) gid := by
  induction c with
  | nil => rfl
  | cons e rest ih =>
    obtain ⟨g, it⟩ := e
    by_cases hg : g = gid
    · simp [cacheRemove, removeStr, hg]
    · simp [cacheRemove, removeStr, hg, ih]

theorem cacheFind_none_iff (c : Cache) (gid : String) :
    cacheFind c gid = none ↔ gid ∉ c.map Prod.fst := by
  induction c with
  | nil => simp [cacheFind]
  | cons e rest ih =>
    obtain ⟨g, it⟩ := e
    simp only [cacheFind, List.map_cons, List.mem_cons]
    by_cases hg : g = gid
    · subst hg
      simp
    · rw [if_neg hg, ih]
      constructor
      · intro hni hmem
        rcases hmem with h1 | h2
        · exact hg h1.symm
        · exact hni h2
      · intro hni hmem
        exact hni (Or.inr hmem)

theorem filter_ne_append_of_not_mem {a : String} {l₁ l₂ : List String} (h : a ∉ l₁) :
    (l₁ ++ l₂).filter (· ≠ a) = l₁ ++ l₂.filter (· ≠ a) := by
  induction l₁ with
  | nil => rfl
  | cons x xs ih =>
    have hxa : x ≠ a := fun hx => h (hx ▸ List.mem_cons_self x xs)
    simp only [List.cons_append, List.filter_cons]
    rw [if_pos (by simpa using hxa), ih (fun hm => h (List.mem_cons_of_mem _ hm))]

theorem filter_ne_of_not_mem {a : String} {l : List String} (h : a ∉ l) :
    l.filter (· ≠ a) = l := by
  have := @filter_ne_append_of_not_mem a l [] h
  simpa using this

/-- Erasing a resident id from the first `K` distinct ids equals keeping the
first `K - 1` of the other ids. -/
theorem removeStr_take_filter :
    ∀ (D : List String) (K : ℕ) (a : String), D.Nodup → a ∈ D.take K →
      removeStr (D.take K) a = (D.filter (· ≠ a)).take (K - 1)
  | [], K, a, _, ha => by simp at ha
  | d :: D', K, a, hnd, ha => by
    cases K with
    | zero => simp at ha
    | succ K' =>
      simp only [List.take_succ_cons] at ha ⊢
      by_cases hda : d = a
      · subst hda
        rw [removeStr, if_pos rfl]
        have hdD : d ∉ D' := (List.nodup_cons.1 hnd).1
        simp only [List.filter_cons]
        rw [if_neg (by simp)]
        rw [filter_ne_of_not_mem hdD]
        simp
      · have haD : a ∈ D'.take K' := by
          rcases List.mem_cons.1 ha with h | h
          · exact absurd h.symm hda
          · exact h
        have hK' : K' ≠ 0 := by
          intro h0
          rw [h0] at haD
          simp at haD
        rw [removeStr, if_neg hda]
        rw [removeStr_take_filter D' K' a (List.nodup_cons.1 hnd).2 haD]
        simp only [List.filter_cons]
        rw [if_pos (by simpa using hda)]
        rw [Nat.succ_sub_one]
        cases K' with
        | zero => exact absurd rfl hK'
        | succ K'' =>
          simp [List.take_succ_cons, Nat.succ_sub_one]

/-- The resident-set invariant: the cached ids are the first `effCap cap` of
the deduplicated touch history. -/
def lruInv (cap : ℕ) (st : Cache × List String) : Prop :=
  st.1.map Prod.fst = (dedupFirst st.2).take (effCap cap)

theorem lruStep_inv (cap : ℕ) (c : Cache) (hist : List String)
    (h : c.map Prod.fst = (dedupFirst hist).take (effCap cap)) (op : CacheOp) :
    (lruStep cap (c, hist) op).1.map Prod.fst =
      (dedupFirst (lruStep cap (c, hist) op).2).take (effCap cap) := by
  have hK : 1 ≤ effCap cap := by
    unfold effCap
    split <;> omega
  obtain ⟨K', hKs⟩ : ∃ K', effCap cap = K' + 1 := ⟨effCap cap - 1, by omega⟩
  cases op with
  | get gid =>
    simp only [lruStep, cacheGet]
    cases hf : cacheFind c gid with
    | none => simpa using h
    | some it =>
      have hmem : gid ∈ (dedupFirst hist).take (effCap cap) := by
        rw [← h]
        by_contra hmem
        rw [(cacheFind_none_iff c gid).2 hmem] at hf
        exact Option.noConfusion hf
      simp only [List.map_cons, cacheRemove_ids, dedupFirst]
      rw [h, removeStr_take_filter _ _ _ (dedupFirst_nodup hist) hmem]
      rw [hKs, List.take_succ_cons, Nat.succ_sub_one]
  | put gid item =>
    simp only [lruStep, cachePut]
    by_cases hf : (cacheFind c gid).isSome = true
    · rw [if_pos hf]
      have hmem : gid ∈ (dedupFirst hist).take (effCap cap) := by
        rw [← h]
        by_contra hmem
        rw [(cacheFind_none_iff c gid).2 hmem] at hf
        simp at hf
      simp only [List.map_cons, cacheRemove_ids, dedupFirst]
      rw [h, removeStr_take_filter _ _ _ (dedupFirst_nodup hist) hmem]
      rw [hKs, List.take_succ_cons, Nat.succ_sub_one]
    · rw [if_neg hf]
      have hmem : gid ∉ c.map Prod.fst := by
        rw [← cacheFind_none_iff]
        cases hfc : cacheFind c gid
        · rfl
        · rw [hfc] at hf
          simp at hf
      have hlentake : (c.map Prod.fst).length = ((dedupFirst hist).take (effCap cap)).length := by
        rw [h]
      simp only [List.length_map, List.length_take] at hlentake
      by_cases hfull : effCap cap ≤ c.length
      · rw [if_pos hfull]
        have hDlen : effCap cap ≤ (dedupFirst hist).length := by omega
        have hlenc : c.length = effCap cap := by omega
        simp only [List.map_cons, dedupFirst]
        rw [hKs, List.take_succ_cons]
        congr 1
        have hK2 : K' = effCap cap - 1 := by omega
        rw [hK2, List.map_dropLast, h, List.dropLast_eq_take, List.length_take]
        have hmin : min (effCap cap) (dedupFirst hist).length = effCap cap := by omega
        rw [hmin, List.take_take]
        have hmin2 : min (effCap cap - 1) (effCap cap) = effCap cap - 1 := by omega
        rw [hmin2]
        have hgidtake : gid ∉ (dedupFirst hist).take (effCap cap) := by
          rw [← h]
          exact hmem
        calc (dedupFirst hist).take (effCap cap - 1)
            = ((dedupFirst hist).take (effCap cap)).take (effCap cap - 1) := by
              rw [List.take_take, Nat.min_eq_left (by omega)]
          _ = (((dedupFirst hist).take (effCap cap) ++
                ((dedupFirst hist).drop (effCap cap)).filter (· ≠ gid))).take
                (effCap cap - 1) := by
              rw [List.take_append_of_le_length]
              rw [List.length_take]
              omega
          _ = ((dedupFirst hist).filter (· ≠ gid)).take (effCap cap - 1) := by
              conv_rhs => rw [← List.take_append_drop (effCap cap) (dedupFirst hist)]
              rw [filter_ne_append_of_not_mem hgidtake]
      · rw [if_neg hfull]
        have hDsmall : (dedupFirst hist).length < effCap cap := by omega
        have htakeD : (dedupFirst hist).take (effCap cap) = dedupFirst hist :=
          List.take_of_length_le (by omega)
        have hmemD : gid ∉ dedupFirst hist := by
          rw [← htakeD, ← h]
          exact hmem
        simp only [List.map_cons, dedupFirst]
        rw [hKs, List.take_succ_cons]
        congr 1
        have hK2 : K' = effCap cap - 1 := by omega
        rw [hK2, h, htakeD, filter_ne_of_not_mem hmemD]
        exact (List.take_of_length_le (by omega)).symm

/-- C7 (claim): after any access sequence against an initially empty
`GridLRUCache`, the resident cell ids are exactly the `capacity` most recently
touched distinct ids — `get` promotes hits, `put` inserts or replaces (also
promoting), and eviction removes exactly the least recently used entry on
inserting into a full cache. -/
theorem c7_lru_resident_set (cap : ℕ) (ops : List CacheOp) :
    (lruRun cap ops).1.map Prod.fst =
      (dedupFirst (lruRun cap ops).2).take (effCap cap) := by
  suffices H : ∀ (st : Cache × List String), lruInv cap st →
      lruInv cap (ops.foldl (lruStep cap) st) by
    exact H ([], []) (by simp [lruInv, dedupFirst])
  induction ops with
  | nil => exact fun st h => h
  | cons op rest ih =>
    intro st h
    exact ih _ (lruStep_inv cap st.1 st.2 h op)

/-! ### C1: put/get round trip on a quiescent engine -/

theorem mapFind_mapInsert_self (l : List (String × String)) (k v : String) :
    mapFind (mapInsert l k v) k = some v := by
  induction l with
  | nil => simp [mapInsert, mapFind]
  | cons kv rest ih =>
    obtain ⟨k', v'⟩ := kv
    by_cases hk : k' = k
    · simp [mapInsert, mapFind, hk]
    · simp [mapInsert, mapFind, hk, ih]

/-- C1 (claim): for an in-bounds point, `put` succeeds and a subsequent `get`
on the quiescent engine finds exactly the stored value, whatever the prior
store and cache contents. -/
theorem c1_put_get_roundtrip (e : TerrainEngine) (s : EState) (lon lat : ℚ) (v : String)
    (h : isWithinBounds e lon lat = true) :
    ∃ s', tPut e s lon lat v = .ok s' ∧ (tGet e s' lon lat).1 = some v := by
  unfold tPut
  rw [if_pos h]
  simp only [cacheGet]
  cases hf : cacheFind s.cache (computeGridId e lon lat) with
  | none =>
    refine ⟨_, rfl, ?_⟩
    unfold tGet
    rw [if_pos h]
    simp only [cacheGet]
    rw [mapFind_mapInsert_self]
    simp [hf]
  | some it =>
    refine ⟨_, rfl, ?_⟩
    unfold tGet
    rw [if_pos h]
    simp only [cacheGet]
    rw [mapFind_mapInsert_self]
    cases hc : s.cache with
    | nil => rw [hc] at hf; exact Option.noConfusion hf
    | cons entry rest =>
      rw [hc] at hf
      obtain ⟨g0, it0⟩ := entry
      by_cases hg : g0 = computeGridId e lon lat
      · subst hg
        simp only [cacheFind, if_pos rfl] at hf
        simp [cacheUpdateData, cacheFind, mapFind_mapInsert_self]
      · simp only [Option.isSome_some, if_true]
        simp only [cacheUpdateData, if_neg hg]
        simp [cacheFind, hg, mapFind_mapInsert_self]

/-- Witness for C1: store one Beijing sample into the empty engine and read it
back. -/
theorem c1_witness :
    isWithinBounds beijingE 116.405285 39.904989 = true ∧
      ∃ s', tPut beijingE initES 116.405285 39.904989 "43.5" = .ok s' ∧
        (tGet beijingE s' 116.405285 39.904989).1 = some "43.5" :=
  ⟨by with_unfolding_all decide,
    c1_put_get_roundtrip beijingE initES 116.405285 39.904989 "43.5"
      (by with_unfolding_all decide)⟩

/-! ### C6: batchPut validates before any store write -/

theorem batchPutGo_oob (e : TerrainEngine) :
    ∀ (data : List (ℚ × ℚ × String)) (c : Cache) (w : List (String × String)),
      (∃ p ∈ data, isWithinBounds e p.1 p.2.1 = false) →
      (batchPutGo e data c w).2.2 = false
  | [], _, _, h => by simp at h
  | (lon, lat, v) :: rest, c, w, h => by
    by_cases hin : isWithinBounds e lon lat = true
    · have hrest : ∃ p ∈ rest, isWithinBounds e p.1 p.2.1 = false := by
        rcases h with ⟨p, hp, hpf⟩
        rcases List.mem_cons.1 hp with h1 | h2
        · subst h1
          simp only at hpf
          rw [hin] at hpf
          exact Bool.noConfusion hpf
        · exact ⟨p, h2, hpf⟩
      simp only [batchPutGo]
      rw [if_pos hin]
      exact batchPutGo_oob e rest _ _ hrest
    · simp only [batchPutGo]
      rw [if_neg hin]

/-- C6 (claim): a batch containing any out-of-bounds point fails with a domain
error before the commit, so the store is exactly as before the call; the
cache-side updates of the points already walked are only best-effort. -/
theorem c6_batchPut_atomic (e : TerrainEngine) (s : EState) (data : List (ℚ × ℚ × String))
    (h : ∃ p ∈ data, isWithinBounds e p.1 p.2.1 = false) :
    (tBatchPut e s data).2 = false ∧ (tBatchPut e s data).1.store = s.store := by
  have hgo := batchPutGo_oob e data s.cache [] h
  unfold tBatchPut
  rcases hres : batchPutGo e data s.cache [] with ⟨c, w, ok⟩
  rw [hres] at hgo
  simp only at hgo
  subst hgo
  exact ⟨rfl, rfl⟩

/-- Witness for C6: a singleton batch with an out-of-bounds point against the
Beijing fixture leaves the store untouched. -/
theorem c6_witness :
    (∃ p ∈ [((115.9 : ℚ), (38.9 : ℚ), "out1")], isWithinBounds beijingE p.1 p.2.1 = false) ∧
      (tBatchPut beijingE initES [(115.9, 38.9, "out1")]).2 = false ∧
      (tBatchPut beijingE initES [(115.9, 38.9, "out1")]).1.store = initES.store :=
  ⟨⟨_, List.mem_singleton_self _, by with_unfolding_all decide⟩,
    c6_batchPut_atomic beijingE initES [(115.9, 38.9, "out1")]
      ⟨_, List.mem_singleton_self _, by with_unfolding_all decide⟩⟩

/-! ### C2 groundwork: cell ranges determine the key's cell -/

theorem char_toNat_inj {a b : Char} (h : a.toNat = b.toNat) : a = b :=
  Char.ext (UInt32.toNat.inj h)

theorem str_data_inj {s t : String} (h : s.data = t.data) : s = t := by
  cases s
  cases t
  subst h
  rfl

/-- `gid` contains no `|` separator. -/
def noBar (s : String) : Bool := s.data.all fun ch => ch ≠ '|'

/-- One comparison step of the bytewise order. -/
theorem bytesLt_cons_cons (a b : Char) (as bs : List Char) :
    bytesLt (a :: as) (b :: bs) =
      if a.toNat < b.toNat then true
      else if b.toNat < a.toNat then false
      else bytesLt as bs := rfl

/-- A key lies in the scan range `[p ++ "|", p ++ "|~")` exactly when it
extends `p ++ "|"` by a tail lexicographically below `"~"`. -/
theorem bytesRange_iff : ∀ (p k : List Char),
    ((!bytesLt k (p ++ ['|'])) && bytesLt k (p ++ ['|', '~'])) = true ↔
      ∃ r, k = p ++ '|' :: r ∧ bytesLt r ['~'] = true
  | [], [] => by
    constructor
    · intro h
      exact absurd h (by decide)
    · rintro ⟨r, hr, -⟩
      exact List.noConfusion hr
  | [], c :: k' => by
    simp only [List.nil_append]
    rw [show (['|', '~'] : List Char) = '|' :: ['~'] from rfl,
      show (['|'] : List Char) = '|' :: [] from rfl,
      bytesLt_cons_cons, bytesLt_cons_cons]
    by_cases h1 : c.toNat < ('|').toNat
    · rw [if_pos h1, if_pos h1]
      constructor
      · intro hcontra
        simp at hcontra
      · rintro ⟨r, hr, -⟩
        obtain ⟨hc, -⟩ := List.cons.inj hr
        subst hc
        omega
    · rw [if_neg h1, if_neg h1]
      by_cases h2 : ('|').toNat < c.toNat
      · rw [if_pos h2, if_pos h2]
        constructor
        · intro hcontra
          simp at hcontra
        · rintro ⟨r, hr, -⟩
          obtain ⟨hc, -⟩ := List.cons.inj hr
          subst hc
          omega
      · rw [if_neg h2, if_neg h2]
        have hc : c = '|' := char_toNat_inj (by omega)
        subst hc
        rw [show bytesLt k' [] = false from by cases k' <;> rfl]
        simp only [Bool.not_false, Bool.true_and]
        constructor
        · intro h
          exact ⟨k', rfl, h⟩
        · rintro ⟨r, hr, hrlt⟩
          obtain ⟨-, hk⟩ := List.cons.inj hr
          subst hk
          exact hrlt
  | a :: p', k => by
    cases k with
    | nil =>
      constructor
      · intro hcontra
        simp [bytesLt] at hcontra
      · rintro ⟨r, hr, -⟩
        exact List.noConfusion hr
    | cons c k' =>
      simp only [List.cons_append]
      rw [bytesLt_cons_cons, bytesLt_cons_cons]
      by_cases h1 : c.toNat < a.toNat
      · rw [if_pos h1, if_pos h1]
        constructor
        · intro hcontra
          simp at hcontra
        · rintro ⟨r, hr, -⟩
          obtain ⟨hc, -⟩ := List.cons.inj hr
          subst hc
          omega
      · rw [if_neg h1, if_neg h1]
        by_cases h2 : a.toNat < c.toNat
        · rw [if_pos h2, if_pos h2]
          constructor
          · intro hcontra
            simp at hcontra
          · rintro ⟨r, hr, -⟩
            obtain ⟨hc, -⟩ := List.cons.inj hr
            subst hc
            omega
        · rw [if_neg h2, if_neg h2]
          have hc : c = a := char_toNat_inj (by omega)
          subst hc
          rw [bytesRange_iff p' k']
          constructor
          · rintro ⟨r, hr, hrlt⟩
            refine ⟨r, ?_, hrlt⟩
            show c :: k' = c :: (p' ++ '|' :: r)
            rw [hr]
          · rintro ⟨r, hr, hrlt⟩
            have hr2 : c :: k' = c :: (p' ++ '|' :: r) := hr
            obtain ⟨-, hk⟩ := List.cons.inj hr2
            exact ⟨r, hk, hrlt⟩

/-- String-level version of `bytesRange_iff`. -/
theorem inCellRange_iff (k gid : String) :
    inCellRange k gid = true ↔
      ∃ r, k.data = gid.data ++ '|' :: r ∧ bytesLt r ['~'] = true := by
  unfold inCellRange strLt
  have hb : (gid ++ "|").data = gid.data ++ ['|'] := by
    rw [String.data_append]
  have hbt : (gid ++ "|~").data = gid.data ++ ['|', '~'] := by
    rw [String.data_append]
  rw [hb, hbt]
  exact bytesRange_iff gid.data k.data

/-- Splitting at the first `|` is unambiguous for `|`-free prefixes. -/
theorem noBar_append_bar_inj : ∀ (c g x y : List Char),
    (∀ ch ∈ c, ch ≠ '|') → (∀ ch ∈ g, ch ≠ '|') →
    c ++ '|' :: x = g ++ '|' :: y → c = g ∧ x = y
  | [], [], x, y, _, _, h => by
    injection h with _ h2
    exact ⟨rfl, h2⟩
  | [], b :: g', x, y, _, hg, h => by
    injection h with h1 _
    exact absurd h1.symm (hg b (List.mem_cons_self _ _))
  | a :: c', [], x, y, hc, _, h => by
    injection h with h1 _
    exact absurd h1 (hc a (List.mem_cons_self _ _))
  | a :: c', b :: g', x, y, hc, hg, h => by
    injection h with h1 h2
    obtain ⟨he, hx⟩ := noBar_append_bar_inj c' g' x y
      (fun ch hch => hc ch (List.mem_cons_of_mem _ hch))
      (fun ch hch => hg ch (List.mem_cons_of_mem _ hch)) h2
    exact ⟨by rw [h1, he], hx⟩

/-- A generated key always lies in the scan range of its own cell. -/
theorem genKey_inRange (lon lat : ℚ) (gid : String) :
    inCellRange (generateKey lon lat gid) gid = true := by
  rw [inCellRange_iff]
  exact ⟨(fmt7 lon).data ++ '|' :: (fmt7 lat).data, generateKey_data lon lat gid,
    bytesLt_fmt7_tail lon _⟩

/-- For `|`-free cell ids, a generated key lies in a cell's scan range exactly
when that cell is the key's own. -/
theorem inCellRange_genKey_iff (lon lat : ℚ) (cid g : String) (hc : noBar cid = true)
    (hg : noBar g = true) :
    inCellRange (generateKey lon lat cid) g = true ↔ g = cid := by
  constructor
  · intro h
    rw [inCellRange_iff] at h
    obtain ⟨r, hr, -⟩ := h
    rw [generateKey_data] at hr
    have hcl : ∀ ch ∈ cid.data, ch ≠ '|' := by
      intro ch hch
      have := List.all_eq_true.1 hc ch hch
      simpa using this
    have hgl : ∀ ch ∈ g.data, ch ≠ '|' := by
      intro ch hch
      have := List.all_eq_true.1 hg ch hch
      simpa using this
    obtain ⟨he, -⟩ := noBar_append_bar_inj cid.data g.data _ _ hcl hgl hr
    exact (str_data_inj he).symm
  · intro h
    rw [h]
    exact genKey_inRange lon lat cid

/-- Every character of a rendered grid id is `G`, `_`, `-` or a digit — never
`|`. -/
theorem formatGridId_noBar (row col : ℤ) : noBar (formatGridId row col) = true := by
  have h124 : ('|').toNat = 124 := by decide
  unfold noBar formatGridId
  rw [List.all_eq_true]
  intro ch hch
  simp only [String.data] at hch
  have hdig : ∀ (i : ℤ), ∀ ch' ∈ padChars '0' 3 (intChars i), ch' ≠ '|' := by
    intro i ch' hch'
    rcases padChars_mem hch' with h0 | h0
    · subst h0
      decide
    · unfold intChars at h0
      split at h0
      · rcases List.mem_cons.1 h0 with h1 | h1
        · subst h1
          decide
        · have hb := natChars_mem h1
          intro hcontra
          subst hcontra
          omega
      · have hb := natChars_mem h0
        intro hcontra
        subst hcontra
        omega
  rcases List.mem_cons.1 hch with h1 | h1
  · subst h1
    decide
  · rcases List.mem_cons.1 h1 with h2 | h2
    · subst h2
      decide
    · rcases List.mem_append.1 h2 with h3 | h3
      · simpa using hdig row ch h3
      · rcases List.mem_cons.1 h3 with h4 | h4
        · subst h4
          decide
        · simpa using hdig col ch h4

/-! ### C2 groundwork: store and cache bookkeeping -/

theorem mapFind_eq_none_iff (l : List (String × String)) (k : String) :
    mapFind l k = none ↔ k ∉ l.map Prod.fst := by
  induction l with
  | nil => simp [mapFind]
  | cons kv rest ih =>
    obtain ⟨k', v'⟩ := kv
    simp only [mapFind, List.map_cons, List.mem_cons]
    by_cases hk : k' = k
    · subst hk
      simp
    · rw [if_neg hk, ih]
      constructor
      · intro hni hmem
        rcases hmem with h1 | h2
        · exact hk h1.symm
        · exact hni h2
      · intro hni hmem
        exact hni (Or.inr hmem)

theorem mapInsert_keys (l : List (String × String)) (k v : String) :
    (mapInsert l k v).map Prod.fst =
      if k ∈ l.map Prod.fst then l.map Prod.fst else l.map Prod.fst ++ [k] := by
  induction l with
  | nil => simp [mapInsert]
  | cons kv rest ih =>
    obtain ⟨k', v'⟩ := kv
    by_cases hk : k' = k
    · subst hk
      simp [mapInsert]
    · simp only [mapInsert, if_neg hk, List.map_cons, ih, List.mem_cons]
      by_cases hmem : k ∈ rest.map Prod.fst
      · rw [if_pos hmem, if_pos (Or.inr hmem)]
      · rw [if_neg hmem, if_neg (by
          intro hcontra
          rcases hcontra with h1 | h2
          · exact hk h1.symm
          · exact hmem h2)]
        simp

theorem mapInsert_keys_nodup {l : List (String × String)} (k v : String)
    (h : (l.map Prod.fst).Nodup) : ((mapInsert l k v).map Prod.fst).Nodup := by
  rw [mapInsert_keys]
  by_cases hmem : k ∈ l.map Prod.fst
  · rwa [if_pos hmem]
  · rw [if_neg hmem]
    rw [List.nodup_append]
    exact ⟨h, List.nodup_singleton k, by simpa using hmem⟩

theorem mapInsert_of_not_mem {l : List (String × String)} {k : String} (v : String)
    (h : k ∉ l.map Prod.fst) : mapInsert l k v = l ++ [(k, v)] := by
  induction l with
  | nil => rfl
  | cons kv rest ih =>
    obtain ⟨k', v'⟩ := kv
    simp only [List.map_cons, List.mem_cons] at h
    push_neg at h
    have hk'k : ¬ k' = k := fun hc => h.1 hc.symm
    simp only [mapInsert, if_neg hk'k, List.cons_append]
    rw [ih h.2]

theorem foldl_mapInsert_eq (l acc : List (String × String))
    (h : ((acc ++ l).map Prod.fst).Nodup) :
    l.foldl (fun m kv => mapInsert m kv.1 kv.2) acc = acc ++ l := by
  induction l generalizing acc with
  | nil => simp
  | cons kv rest ih =>
    obtain ⟨k, v⟩ := kv
    simp only [List.foldl_cons]
    have hknotin : k ∉ acc.map Prod.fst := by
      simp only [List.map_append, List.nodup_append] at h
      intro hcontra
      exact h.2.2 hcontra (by simp)
    rw [mapInsert_of_not_mem v hknotin]
    have h2 : (((acc ++ [(k, v)]) ++ rest).map Prod.fst).Nodup := by
      simpa using h
    rw [ih _ h2]
    simp

theorem mapFind_dbCellScan {st : Store} {k : String} (gid : String)
    (h : inCellRange k gid = true) :
    mapFind (dbCellScan st gid) k = mapFind st k := by
  induction st with
  | nil => rfl
  | cons kv rest ih =>
    obtain ⟨k', v'⟩ := kv
    by_cases hk : k' = k
    · subst hk
      simp [dbCellScan, List.filter_cons, h, mapFind]
    · simp only [dbCellScan, List.filter_cons]
      by_cases hr : inCellRange k' gid = true
      · rw [if_pos hr]
        simp only [mapFind, if_neg hk]
        exact ih
      · rw [if_neg (by simpa using hr)]
        simp only [mapFind, if_neg hk]
        exact ih

theorem dbCellScan_mapInsert_inRange {st : Store} {k : String} (v gid : String)
    (h : inCellRange k gid = true) :
    dbCellScan (mapInsert st k v) gid = mapInsert (dbCellScan st gid) k v := by
  induction st with
  | nil => simp [dbCellScan, mapInsert, h]
  | cons kv rest ih =>
    obtain ⟨k', v'⟩ := kv
    by_cases hk : k' = k
    · subst hk
      simp [mapInsert, dbCellScan, List.filter_cons, h]
    · simp only [mapInsert, if_neg hk, dbCellScan, List.filter_cons]
      by_cases hr : inCellRange k' gid = true
      · rw [if_pos hr, if_pos hr]
        simp only [dbCellScan] at ih
        rw [ih]
        simp [mapInsert, hk]
      · rw [if_neg (by simpa using hr), if_neg (by simpa using hr)]
        simp only [dbCellScan] at ih
        rw [ih]

theorem dbCellScan_mapInsert_notInRange {st : Store} {k : String} (v gid : String)
    (h : inCellRange k gid = false) :
    dbCellScan (mapInsert st k v) gid = dbCellScan st gid := by
  induction st with
  | nil => simp [dbCellScan, mapInsert, h]
  | cons kv rest ih =>
    obtain ⟨k', v'⟩ := kv
    by_cases hk : k' = k
    · subst hk
      simp [mapInsert, dbCellScan, List.filter_cons, h]
    · simp only [mapInsert, if_neg hk, dbCellScan, List.filter_cons]
      by_cases hr : inCellRange k' gid = true
      · rw [if_pos hr, if_pos hr]
        simp only [dbCellScan] at ih
        rw [ih]
      · rw [if_neg (by simpa using hr), if_neg (by simpa using hr)]
        exact ih

/-! ### C2 groundwork: cache entry lemmas and the engine invariant -/

theorem cacheFind_mem {c : Cache} {gid : String} {it : GridCacheItem}
    (h : cacheFind c gid = some it) : (gid, it) ∈ c := by
  induction c with
  | nil => exact Option.noConfusion h
  | cons ent rest ih =>
    obtain ⟨g, it'⟩ := ent
    by_cases hg : g = gid
    · subst hg
      rw [cacheFind, if_pos rfl] at h
      injection h with h
      subst h
      exact List.mem_cons_self _ _
    · rw [cacheFind, if_neg hg] at h
      exact List.mem_cons_of_mem _ (ih h)

theorem cacheRemove_sublist (c : Cache) (gid : String) :
    (cacheRemove c gid).Sublist c := by
  induction c with
  | nil => simp [cacheRemove]
  | cons ent rest ih =>
    obtain ⟨g, it⟩ := ent
    by_cases hg : g = gid
    · rw [cacheRemove, if_pos hg]
      exact (List.sublist_cons_self _ _)
    · rw [cacheRemove, if_neg hg]
      exact ih.cons₂ _

theorem removeStr_sublist (l : List String) (a : String) :
    (removeStr l a).Sublist l := by
  induction l with
  | nil => simp [removeStr]
  | cons x xs ih =>
    by_cases hx : x = a
    · rw [removeStr, if_pos hx]
      exact List.sublist_cons_self _ _
    · rw [removeStr, if_neg hx]
      exact ih.cons₂ _

theorem not_mem_removeStr {l : List String} {a : String} (h : l.Nodup) :
    a ∉ removeStr l a := by
  induction l with
  | nil => simp [removeStr]
  | cons x xs ih =>
    by_cases hx : x = a
    · rw [removeStr, if_pos hx]
      subst hx
      exact (List.nodup_cons.1 h).1
    · rw [removeStr, if_neg hx]
      intro hc
      rcases List.mem_cons.1 hc with h1 | h1
      · exact hx h1.symm
      · exact ih (List.nodup_cons.1 h).2 h1

theorem promote_ids_nodup {c : Cache} {gid : String} (it : GridCacheItem)
    (h : (c.map Prod.fst).Nodup) :
    (((gid, it) :: cacheRemove c gid).map Prod.fst).Nodup := by
  rw [List.map_cons, cacheRemove_ids, List.nodup_cons]
  exact ⟨not_mem_removeStr h, ((removeStr_sublist _ _).nodup h)⟩

theorem cachePut_mem {c : Cache} {gid : String} {item : GridCacheItem} {cap : ℕ} :
    ∀ ent ∈ cachePut c gid item cap, ent = (gid, item) ∨ ent ∈ c := by
  intro ent hent
  unfold cachePut at hent
  split at hent
  · rcases List.mem_cons.1 hent with h1 | h1
    · exact Or.inl h1
    · exact Or.inr ((cacheRemove_sublist c gid).mem h1)
  · split at hent
    · rcases List.mem_cons.1 hent with h1 | h1
      · exact Or.inl h1
      · exact Or.inr ((List.dropLast_sublist c).mem h1)
    · rcases List.mem_cons.1 hent with h1 | h1
      · exact Or.inl h1
      · exact Or.inr h1

theorem cachePut_ids_nodup {c : Cache} {gid : String} {item : GridCacheItem} {cap : ℕ}
    (h : (c.map Prod.fst).Nodup) :
    ((cachePut c gid item cap).map Prod.fst).Nodup := by
  unfold cachePut
  split
  · exact promote_ids_nodup item h
  · next hf =>
    have hgid : gid ∉ c.map Prod.fst := by
      rw [← cacheFind_none_iff]
      cases hfc : cacheFind c gid
      · rfl
      · rw [hfc] at hf
        simp at hf
    split
    · rw [List.map_cons, List.nodup_cons, List.map_dropLast]
      refine ⟨fun hc => hgid ((List.dropLast_sublist _).mem hc), (List.dropLast_sublist _).nodup h⟩
    · rw [List.map_cons, List.nodup_cons]
      exact ⟨hgid, h⟩

theorem cacheUpdateData_head (gid : String) (it : GridCacheItem) (rest : Cache)
    (k v : String) :
    cacheUpdateData ((gid, it) :: rest) gid k v =
      (gid, { it with data := mapInsert it.data k v }) :: rest := by
  rw [cacheUpdateData, if_pos rfl]

/-- The engine-state invariant maintained by every quiescent operation: store
keys are unique, cache ids are unique, and every resident `|`-free cell holds
exactly the store's scan of its range. -/
structure EngInv (s : EState) : Prop where
  storeNodup : (s.store.map Prod.fst).Nodup
  cacheNodup : (s.cache.map Prod.fst).Nodup
  coh : ∀ ent ∈ s.cache, noBar ent.1 = true → ent.2.data = dbCellScan s.store ent.1

theorem initES_inv : EngInv initES :=
  ⟨by simp [initES], by simp [initES], by simp [initES]⟩

theorem loadGridToCache_spec (e : TerrainEngine) (s : EState) (gid : String)
    (hinv : EngInv s) :
    (loadGridToCache e s gid).1.store = s.store ∧
      EngInv (loadGridToCache e s gid).1 ∧
      ∃ item, (loadGridToCache e s gid).2 = some item ∧
        item.data = dbCellScan s.store gid := by
  have hscan : (dbCellScan s.store gid).foldl (fun m kv => mapInsert m kv.1 kv.2) [] =
      dbCellScan s.store gid := by
    have hsub : ((dbCellScan s.store gid).map Prod.fst).Sublist (s.store.map Prod.fst) :=
      (List.filter_sublist _).map _
    have hnd : ((dbCellScan s.store gid).map Prod.fst).Nodup := hsub.nodup hinv.storeNodup
    have := foldl_mapInsert_eq (dbCellScan s.store gid) [] (by simpa using hnd)
    simpa using this
  refine ⟨rfl, ?_, ⟨gid, _⟩, rfl, hscan⟩
  refine ⟨hinv.storeNodup, cachePut_ids_nodup hinv.cacheNodup, ?_⟩
  intro ent hent hnb
  rcases cachePut_mem ent hent with h1 | h1
  · subst h1
    exact hscan
  · exact hinv.coh ent h1 hnb

theorem tPut_inv (e : TerrainEngine) (s : EState) (lon lat : ℚ) (v : String)
    (s' : EState) (hinv : EngInv s) (h : tPut e s lon lat v = .ok s') :
    EngInv s' ∧
      s'.store = mapInsert s.store (generateKey lon lat (computeGridId e lon lat)) v := by
  unfold tPut at h
  by_cases hin : isWithinBounds e lon lat = true
  · rw [if_pos hin] at h
    simp only [cacheGet] at h
    set gid := computeGridId e lon lat with hgid
    set key := generateKey lon lat gid with hkey
    have hnbgid : noBar gid = true := formatGridId_noBar _ _
    have hother : ∀ g : String, noBar g = true → g ≠ gid →
        dbCellScan (mapInsert s.store key v) g = dbCellScan s.store g := by
      intro g hnb hne
      apply dbCellScan_mapInsert_notInRange
      cases hb : inCellRange key g with
      | false => rfl
      | true =>
        exact absurd ((inCellRange_genKey_iff lon lat gid g hnbgid hnb).1 hb) hne
    cases hf : cacheFind s.cache gid with
    | none =>
      rw [hf] at h
      simp only [Option.isSome_none, Bool.false_eq_true, if_false] at h
      injection h with h
      subst h
      refine ⟨⟨mapInsert_keys_nodup _ _ hinv.storeNodup, hinv.cacheNodup, ?_⟩, rfl⟩
      intro ent hent hnb
      have hne : ent.1 ≠ gid := by
        intro hc
        have : gid ∈ s.cache.map Prod.fst := by
          rw [← hc]
          exact List.mem_map_of_mem _ hent
        exact (cacheFind_none_iff _ _).1 hf this
      rw [hother ent.1 hnb hne]
      exact hinv.coh ent hent hnb
    | some it =>
      rw [hf] at h
      simp only [Option.isSome_some, if_true] at h
      rw [cacheUpdateData_head] at h
      injection h with h
      subst h
      refine ⟨⟨mapInsert_keys_nodup _ _ hinv.storeNodup, ?_, ?_⟩, rfl⟩
      · exact promote_ids_nodup _ hinv.cacheNodup
      · intro ent hent hnb
        rcases List.mem_cons.1 hent with h1 | h1
        · subst h1
          simp only
          rw [dbCellScan_mapInsert_inRange v gid (genKey_inRange lon lat gid)]
          congr 1
          exact hinv.coh (gid, it) (cacheFind_mem hf) hnbgid
        · have hmemc : ent ∈ s.cache := (cacheRemove_sublist _ _).mem h1
          have hne : ent.1 ≠ gid := by
            intro hc
            have hgm : gid ∈ (cacheRemove s.cache gid).map Prod.fst := by
              have hm := List.mem_map_of_mem Prod.fst h1
              rw [hc] at hm
              exact hm
            rw [cacheRemove_ids] at hgm
            exact not_mem_removeStr hinv.cacheNodup hgm
          rw [hother ent.1 hnb hne]
          exact hinv.coh ent hmemc hnb
  · rw [if_neg hin] at h
    exact Except.noConfusion h

theorem foldl_scan_eq (st : Store) (gid : String) (hnd : (st.map Prod.fst).Nodup) :
    (dbCellScan st gid).foldl (fun m kv => mapInsert m kv.1 kv.2) [] =
      dbCellScan st gid := by
  have hsub : ((dbCellScan st gid).map Prod.fst).Sublist (st.map Prod.fst) :=
    (List.filter_sublist _).map _
  have := foldl_mapInsert_eq (dbCellScan st gid) [] (by simpa using hsub.nodup hnd)
  simpa using this

theorem tGet_inv (e : TerrainEngine) (s : EState) (lon lat : ℚ) (hinv : EngInv s) :
    EngInv (tGet e s lon lat).2 ∧ (tGet e s lon lat).2.store = s.store := by
  by_cases hin : isWithinBounds e lon lat = true
  · have hnbgid : noBar (computeGridId e lon lat) = true := formatGridId_noBar _ _
    cases hf : cacheFind s.cache (computeGridId e lon lat) with
    | some it =>
      have hpromote : EngInv { s with cache :=
          (computeGridId e lon lat, it) :: cacheRemove s.cache (computeGridId e lon lat) } := by
        refine ⟨hinv.storeNodup, promote_ids_nodup _ hinv.cacheNodup, ?_⟩
        intro ent hent hnb'
        rcases List.mem_cons.1 hent with h1 | h1
        · subst h1
          exact hinv.coh _ (cacheFind_mem hf) hnb'
        · exact hinv.coh ent ((cacheRemove_sublist _ _).mem h1) hnb'
      cases hd : mapFind it.data (generateKey lon lat (computeGridId e lon lat)) with
      | some v =>
        simp only [tGet, if_pos hin, cacheGet, hf, hd]
        exact ⟨hpromote, trivial⟩
      | none =>
        cases hs : mapFind s.store (generateKey lon lat (computeGridId e lon lat)) with
        | some v =>
          exfalso
          have hcoh := hinv.coh (computeGridId e lon lat, it) (cacheFind_mem hf) hnbgid
          have hcontr :
              mapFind it.data (generateKey lon lat (computeGridId e lon lat)) = some v := by
            show mapFind (computeGridId e lon lat, it).2.data _ = some v
            rw [hcoh, mapFind_dbCellScan _ (genKey_inRange lon lat _)]
            exact hs
          rw [hd] at hcontr
          exact Option.noConfusion hcontr
        | none =>
          simp only [tGet, if_pos hin, cacheGet, hf, hd, hs]
          exact ⟨hpromote, trivial⟩
    | none =>
      obtain ⟨hst, hinv', -, -, -⟩ := loadGridToCache_spec e s (computeGridId e lon lat) hinv
      cases hs : mapFind s.store (generateKey lon lat (computeGridId e lon lat)) with
      | some v =>
        simp only [tGet, if_pos hin, cacheGet, hf, hs]
        exact ⟨hinv', hst⟩
      | none =>
        simp only [tGet, if_pos hin, cacheGet, hf, hs]
        exact ⟨hinv', hst⟩
  · simp only [tGet, if_neg hin]
    exact ⟨hinv, trivial⟩

theorem processGrid_spec (e : TerrainEngine) (s : EState) (gid : String)
    (a b c d : ℚ) (hnb : noBar gid = true) (hinv : EngInv s) :
    (processGrid e s gid a b c d).found =
        gridFilterData (dbCellScan s.store gid) a b c d ∧
      (processGrid e s gid a b c d).state.store = s.store ∧
      EngInv (processGrid e s gid a b c d).state := by
  cases hf : cacheFind s.cache gid with
  | some it =>
    have hcoh := hinv.coh (gid, it) (cacheFind_mem hf) hnb
    simp only [processGrid, cacheGet, hf]
    refine ⟨?_, trivial, ?_⟩
    · show gridFilterData it.data a b c d = _
      rw [show it.data = (gid, it).2.data from rfl, hcoh]
    · refine ⟨hinv.storeNodup, promote_ids_nodup _ hinv.cacheNodup, ?_⟩
      intro ent hent hnb'
      rcases List.mem_cons.1 hent with h1 | h1
      · subst h1
        exact hinv.coh _ (cacheFind_mem hf) hnb'
      · exact hinv.coh ent ((cacheRemove_sublist _ _).mem h1) hnb'
  | none =>
    simp only [processGrid, cacheGet, hf, loadGridToCache]
    refine ⟨?_, trivial, ?_⟩
    · rw [foldl_scan_eq s.store gid hinv.storeNodup]
    · refine ⟨hinv.storeNodup, cachePut_ids_nodup hinv.cacheNodup, ?_⟩
      intro ent hent hnb'
      rcases cachePut_mem ent hent with h1 | h1
      · subst h1
        exact foldl_scan_eq s.store gid hinv.storeNodup
      · exact hinv.coh ent h1 hnb'

theorem tRangeQuery_fold (e : TerrainEngine) (a b c d : ℚ) :
    ∀ (cells : List (ℤ × ℤ)) (s : EState) (acc : List (ℚ × ℚ × String)), EngInv s →
      (cells.foldl (fun accp rc =>
          let pg := processGrid e accp.1 (formatGridId rc.1 rc.2) a b c d
          (pg.state, accp.2 ++ pg.found)) (s, acc)).2 =
          acc ++ cells.flatMap (fun rc =>
            gridFilterData (dbCellScan s.store (formatGridId rc.1 rc.2)) a b c d) ∧
        (cells.foldl (fun accp rc =>
          let pg := processGrid e accp.1 (formatGridId rc.1 rc.2) a b c d
          (pg.state, accp.2 ++ pg.found)) (s, acc)).1.store = s.store ∧
        EngInv (cells.foldl (fun accp rc =>
          let pg := processGrid e accp.1 (formatGridId rc.1 rc.2) a b c d
          (pg.state, accp.2 ++ pg.found)) (s, acc)).1
  | [], s, acc, hinv => by
    refine ⟨?_, rfl, hinv⟩
    simp
  | rc :: rest, s, acc, hinv => by
    obtain ⟨hfound, hstore, hinv'⟩ :=
      processGrid_spec e s (formatGridId rc.1 rc.2) a b c d (formatGridId_noBar _ _) hinv
    simp only [List.foldl_cons, List.flatMap_cons]
    obtain ⟨ih1, ih2, ih3⟩ := tRangeQuery_fold e a b c d rest
      (processGrid e s (formatGridId rc.1 rc.2) a b c d).state
      (acc ++ (processGrid e s (formatGridId rc.1 rc.2) a b c d).found) hinv'
    refine ⟨?_, ?_, ih3⟩
    · rw [ih1, hfound, hstore]
      simp [List.append_assoc]
    · rw [ih2, hstore]

theorem tRangeQuery_spec (e : TerrainEngine) (s : EState) (a b c d : ℚ)
    (hinv : EngInv s) :
    (tRangeQuery e s a b c d).2 = (coveredCells e a b c d).flatMap (fun rc =>
        gridFilterData (dbCellScan s.store (formatGridId rc.1 rc.2)) a b c d) ∧
      (tRangeQuery e s a b c d).1.store = s.store ∧
      EngInv (tRangeQuery e s a b c d).1 := by
  unfold tRangeQuery
  have := tRangeQuery_fold e a b c d (coveredCells e a b c d) s [] hinv
  simpa using this

theorem applyWrites_append (st : Store) (w1 w2 : List (String × String)) :
    applyWrites st (w1 ++ w2) = applyWrites (applyWrites st w1) w2 := by
  unfold applyWrites
  rw [List.foldl_append]

theorem applyWrites_singleton (st : Store) (k v : String) :
    applyWrites st [(k, v)] = mapInsert st k v := rfl

theorem applyWrites_nodup {st : Store} (w : List (String × String))
    (h : (st.map Prod.fst).Nodup) : ((applyWrites st w).map Prod.fst).Nodup := by
  induction w generalizing st with
  | nil => exact h
  | cons kv rest ih =>
    show ((applyWrites (mapInsert st kv.1 kv.2) rest).map Prod.fst).Nodup
    exact ih (mapInsert_keys_nodup _ _ h)

theorem batchPutGo_spec (e : TerrainEngine) :
    ∀ (data : List (ℚ × ℚ × String)) (c : Cache) (w : List (String × String)) (st : Store),
      data.all (fun p => isWithinBounds e p.1 p.2.1) = true →
      (c.map Prod.fst).Nodup →
      (∀ ent ∈ c, noBar ent.1 = true → ent.2.data = dbCellScan (applyWrites st w) ent.1) →
      (batchPutGo e data c w).2.2 = true ∧
        (batchPutGo e data c w).2.1 = w ++ data.map (fun p =>
          (generateKey p.1 p.2.1 (computeGridId e p.1 p.2.1), p.2.2)) ∧
        ((batchPutGo e data c w).1.map Prod.fst).Nodup ∧
        (∀ ent ∈ (batchPutGo e data c w).1, noBar ent.1 = true →
          ent.2.data = dbCellScan (applyWrites st (batchPutGo e data c w).2.1) ent.1)
  | [], c, w, st, _, hcn, hcoh => by
    refine ⟨rfl, by show w = w ++ List.map _ []; simp, hcn, ?_⟩
    intro ent hent hnb
    exact hcoh ent hent hnb
  | (lon, lat, v) :: rest, c, w, st, hall, hcn, hcoh => by
    rw [List.all_cons, Bool.and_eq_true] at hall
    obtain ⟨hin, hrest⟩ := hall
    have hnbgid : noBar (computeGridId e lon lat) = true := formatGridId_noBar _ _
    have hwstep : applyWrites st
        (w ++ [(generateKey lon lat (computeGridId e lon lat), v)]) =
        mapInsert (applyWrites st w) (generateKey lon lat (computeGridId e lon lat)) v := by
      rw [applyWrites_append, applyWrites_singleton]
    have hother : ∀ g : String, noBar g = true → g ≠ computeGridId e lon lat →
        dbCellScan (mapInsert (applyWrites st w)
            (generateKey lon lat (computeGridId e lon lat)) v) g =
          dbCellScan (applyWrites st w) g := by
      intro g hnb hne
      apply dbCellScan_mapInsert_notInRange
      cases hb : inCellRange (generateKey lon lat (computeGridId e lon lat)) g with
      | false => rfl
      | true =>
        exact absurd ((inCellRange_genKey_iff lon lat _ g hnbgid hnb).1 hb) hne
    cases hf : cacheFind c (computeGridId e lon lat) with
    | none =>
      have hcoh2 : ∀ ent ∈ c, noBar ent.1 = true →
          ent.2.data = dbCellScan (applyWrites st
            (w ++ [(generateKey lon lat (computeGridId e lon lat), v)])) ent.1 := by
        intro ent hent hnb
        rw [hwstep]
        have hne : ent.1 ≠ computeGridId e lon lat := by
          intro hcontra
          have : computeGridId e lon lat ∈ c.map Prod.fst := by
            rw [← hcontra]
            exact List.mem_map_of_mem _ hent
          exact (cacheFind_none_iff _ _).1 hf this
        rw [hother ent.1 hnb hne]
        exact hcoh ent hent hnb
      obtain ⟨hr1, hr2, hr3, hr4⟩ := batchPutGo_spec e rest c
        (w ++ [(generateKey lon lat (computeGridId e lon lat), v)]) st hrest hcn hcoh2
      simp only [batchPutGo, if_pos hin, cacheGet, hf, Option.isSome_none,
        Bool.false_eq_true, if_false]
      refine ⟨hr1, ?_, hr3, hr4⟩
      rw [hr2]
      simp
    | some it =>
      have hcoh2 : ∀ ent ∈ ((computeGridId e lon lat, { it with data := mapInsert it.data (generateKey lon lat (computeGridId e lon lat)) v }) :: cacheRemove c (computeGridId e lon lat)), noBar ent.1 = true →
          ent.2.data = dbCellScan (applyWrites st
            (w ++ [(generateKey lon lat (computeGridId e lon lat), v)])) ent.1 := by
        intro ent hent hnb
        rw [hwstep]
        rcases List.mem_cons.1 hent with h1 | h1
        · subst h1
          simp only
          rw [dbCellScan_mapInsert_inRange v _ (genKey_inRange lon lat _)]
          congr 1
          exact hcoh (computeGridId e lon lat, it) (cacheFind_mem hf) hnbgid
        · have hmemc : ent ∈ c := (cacheRemove_sublist _ _).mem h1
          have hne : ent.1 ≠ computeGridId e lon lat := by
            intro hcontra
            have hgm := List.mem_map_of_mem Prod.fst h1
            rw [hcontra, cacheRemove_ids] at hgm
            exact not_mem_removeStr hcn hgm
          rw [hother ent.1 hnb hne]
          exact hcoh ent hmemc hnb
      obtain ⟨hr1, hr2, hr3, hr4⟩ := batchPutGo_spec e rest _
        (w ++ [(generateKey lon lat (computeGridId e lon lat), v)]) st hrest
        (promote_ids_nodup _ hcn) hcoh2
      simp only [batchPutGo, if_pos hin, cacheGet, hf, Option.isSome_some, if_true,
        cacheUpdateData_head]
      refine ⟨hr1, ?_, hr3, hr4⟩
      rw [hr2]
      simp

theorem tBatchPut_inv (e : TerrainEngine) (s : EState) (data : List (ℚ × ℚ × String))
    (hall : data.all (fun p => isWithinBounds e p.1 p.2.1) = true) (hinv : EngInv s) :
    (tBatchPut e s data).2 = true ∧
      (tBatchPut e s data).1.store = applyWrites s.store (data.map fun p =>
        (generateKey p.1 p.2.1 (computeGridId e p.1 p.2.1), p.2.2)) ∧
      EngInv (tBatchPut e s data).1 := by
  obtain ⟨hok, hw, hcn, hcoh⟩ := batchPutGo_spec e data s.cache [] s.store hall
    hinv.cacheNodup (fun ent hent hnb => hinv.coh ent hent hnb)
  unfold tBatchPut
  rcases hres : batchPutGo e data s.cache [] with ⟨c2, wr⟩
  obtain ⟨w2, ok⟩ := wr
  rw [hres] at hok hw hcn hcoh
  simp only at hok hw hcn hcoh
  subst hok
  subst hw
  refine ⟨rfl, by simp, ?_⟩
  exact ⟨applyWrites_nodup _ hinv.storeNodup, hcn, fun ent hent hnb => by
    have := hcoh ent hent hnb
    simpa using this⟩

theorem tClearCache_inv (s : EState) (hinv : EngInv s) : EngInv (tClearCache s) :=
  ⟨hinv.storeNodup, by simp [tClearCache], by simp [tClearCache]⟩

theorem tEvictGrid_inv (s : EState) (gid : String) (hinv : EngInv s) :
    EngInv (tEvictGrid s gid) := by
  refine ⟨hinv.storeNodup, ?_, ?_⟩
  · show ((cacheRemove s.cache gid).map Prod.fst).Nodup
    rw [cacheRemove_ids]
    exact (removeStr_sublist _ _).nodup hinv.cacheNodup
  · intro ent hent hnb
    exact hinv.coh ent ((cacheRemove_sublist _ _).mem hent) hnb

theorem writesOf_cons_put (e : TerrainEngine) (lon lat : ℚ) (v : String) (rest : List TOp) :
    writesOf e (TOp.put lon lat v :: rest) =
      (if isWithinBounds e lon lat then
        [(generateKey lon lat (computeGridId e lon lat), v)]
       else []) ++ writesOf e rest := rfl

theorem writesOf_cons_batch (e : TerrainEngine) (data : List (ℚ × ℚ × String))
    (rest : List TOp) :
    writesOf e (TOp.batchPut data :: rest) =
      (if data.all (fun p => isWithinBounds e p.1 p.2.1) then
        data.map fun p => (generateKey p.1 p.2.1 (computeGridId e p.1 p.2.1), p.2.2)
       else []) ++ writesOf e rest := rfl

theorem writesOf_cons_get (e : TerrainEngine) (lon lat : ℚ) (rest : List TOp) :
    writesOf e (TOp.get lon lat :: rest) = writesOf e rest := rfl

theorem writesOf_cons_range (e : TerrainEngine) (a b c d : ℚ) (rest : List TOp) :
    writesOf e (TOp.rangeQuery a b c d :: rest) = writesOf e rest := rfl

theorem writesOf_cons_preload (e : TerrainEngine) (gid : String) (rest : List TOp) :
    writesOf e (TOp.preloadGrid gid :: rest) = writesOf e rest := rfl

theorem writesOf_cons_evict (e : TerrainEngine) (gid : String) (rest : List TOp) :
    writesOf e (TOp.evictGrid gid :: rest) = writesOf e rest := rfl

theorem writesOf_cons_clear (e : TerrainEngine) (rest : List TOp) :
    writesOf e (TOp.clearCache :: rest) = writesOf e rest := rfl

/-- The store writes a single operation commits. -/
def opWrites (e : TerrainEngine) : TOp → List (String × String)
  | .put lon lat v =>
    if isWithinBounds e lon lat then
      [(generateKey lon lat (computeGridId e lon lat), v)]
    else []
  | .batchPut data =>
    if data.all (fun p => isWithinBounds e p.1 p.2.1) then
      data.map fun p => (generateKey p.1 p.2.1 (computeGridId e p.1 p.2.1), p.2.2)
    else []
  | _ => []

theorem writesOf_cons (e : TerrainEngine) (op : TOp) (rest : List TOp) :
    writesOf e (op :: rest) = opWrites e op ++ writesOf e rest := by
  cases op <;> rfl

theorem stepOp_inv_put (e : TerrainEngine) (s : EState) (lon lat : ℚ) (v : String)
    (hinv : EngInv s) :
    EngInv (stepOp e s (.put lon lat v)) ∧
      (stepOp e s (.put lon lat v)).store =
        applyWrites s.store (opWrites e (.put lon lat v)) := by
  cases hput : tPut e s lon lat v with
  | ok s' =>
    have hin : isWithinBounds e lon lat = true := by
      by_contra hin
      rw [tPut, if_neg hin] at hput
      exact Except.noConfusion hput
    obtain ⟨hinv', hst⟩ := tPut_inv e s lon lat v s' hinv hput
    refine ⟨by simpa [stepOp, hput] using hinv', ?_⟩
    simp only [stepOp, hput, opWrites, if_pos hin]
    rw [applyWrites_singleton]
    exact hst
  | error msg =>
    have hin : ¬ isWithinBounds e lon lat = true := by
      intro hin
      rw [tPut, if_pos hin] at hput
      exact Except.noConfusion hput
    refine ⟨by simpa [stepOp, hput] using hinv, ?_⟩
    simp only [stepOp, hput, opWrites, if_neg hin]
    rfl

theorem stepOp_inv_batch (e : TerrainEngine) (s : EState) (data : List (ℚ × ℚ × String))
    (hop : opOK e (.batchPut data) = true) (hinv : EngInv s) :
    EngInv (stepOp e s (.batchPut data)) ∧
      (stepOp e s (.batchPut data)).store =
        applyWrites s.store (opWrites e (.batchPut data)) := by
  have hok : data.all (fun p => isWithinBounds e p.1 p.2.1) = true := by
    simpa [opOK] using hop
  obtain ⟨hsucc, hst, hinv2⟩ := tBatchPut_inv e s data hok hinv
  simp only [stepOp, opWrites, if_pos hok]
  exact ⟨hinv2, hst⟩

theorem stepOp_inv_rest (e : TerrainEngine) (s : EState) (op : TOp)
    (hnp : opWrites e op = []) (hinv : EngInv s)
    (hop2 : (∀ lon lat v, op ≠ .put lon lat v) ∧ ∀ data, op ≠ .batchPut data) :
    EngInv (stepOp e s op) ∧ (stepOp e s op).store = applyWrites s.store [] := by
  cases op with
  | put lon lat v => exact absurd rfl (hop2.1 lon lat v)
  | batchPut data => exact absurd rfl (hop2.2 data)
  | get lon lat =>
    obtain ⟨hinv', hst⟩ := tGet_inv e s lon lat hinv
    simp only [stepOp]
    exact ⟨hinv', hst⟩
  | rangeQuery a b c d =>
    obtain ⟨-, hst, hinv'⟩ := tRangeQuery_spec e s a b c d hinv
    simp only [stepOp]
    exact ⟨hinv', hst⟩
  | preloadGrid gid =>
    obtain ⟨hst, hinv', -⟩ := loadGridToCache_spec e s gid hinv
    simp only [stepOp]
    exact ⟨hinv', hst⟩
  | evictGrid gid =>
    simp only [stepOp]
    exact ⟨tEvictGrid_inv s gid hinv, rfl⟩
  | clearCache =>
    simp only [stepOp]
    exact ⟨tClearCache_inv s hinv, rfl⟩

theorem stepOp_inv (e : TerrainEngine) (s : EState) (op : TOp) (hop : opOK e op = true)
    (hinv : EngInv s) :
    EngInv (stepOp e s op) ∧
      (stepOp e s op).store = applyWrites s.store (opWrites e op) := by
  cases op with
  | put lon lat v => exact stepOp_inv_put e s lon lat v hinv
  | batchPut data => exact stepOp_inv_batch e s data hop hinv
  | get lon lat =>
    exact stepOp_inv_rest e s _ rfl hinv ⟨fun _ _ _ h => TOp.noConfusion h,
      fun _ h => TOp.noConfusion h⟩
  | rangeQuery a b c d =>
    exact stepOp_inv_rest e s _ rfl hinv ⟨fun _ _ _ h => TOp.noConfusion h,
      fun _ h => TOp.noConfusion h⟩
  | preloadGrid gid =>
    exact stepOp_inv_rest e s _ rfl hinv ⟨fun _ _ _ h => TOp.noConfusion h,
      fun _ h => TOp.noConfusion h⟩
  | evictGrid gid =>
    exact stepOp_inv_rest e s _ rfl hinv ⟨fun _ _ _ h => TOp.noConfusion h,
      fun _ h => TOp.noConfusion h⟩
  | clearCache =>
    exact stepOp_inv_rest e s _ rfl hinv ⟨fun _ _ _ h => TOp.noConfusion h,
      fun _ h => TOp.noConfusion h⟩

/-- Running a sequence of non-throwing operations from any invariant state
preserves the invariant, and the store ends up as exactly the accumulated
committed writes. -/
theorem runOps_inv (e : TerrainEngine) :
    ∀ (ops : List TOp) (s : EState), ops.all (opOK e) = true → EngInv s →
      EngInv (runOps e s ops) ∧
        (runOps e s ops).store = applyWrites s.store (writesOf e ops)
  | [], s, _, hinv => ⟨hinv, rfl⟩
  | op :: rest, s, hall, hinv => by
    rw [List.all_cons, Bool.and_eq_true] at hall
    obtain ⟨hop, hrest⟩ := hall
    obtain ⟨hinv', hst⟩ := stepOp_inv e s op hop hinv
    obtain ⟨hinvR, hstR⟩ := runOps_inv e rest (stepOp e s op) hrest hinv'
    refine ⟨hinvR, ?_⟩
    show (runOps e (stepOp e s op) rest).store = _
    rw [hstR, hst, writesOf_cons, applyWrites_append]

theorem gridFilterData_mem (data : List (String × String)) (a b c d lo la : ℚ)
    (v : String) :
    (lo, la, v) ∈ gridFilterData data a b c d ↔
      ∃ kv ∈ data, parseKey kv.1 = some (lo, la) ∧ kv.2 = v ∧
        a ≤ lo ∧ lo ≤ c ∧ b ≤ la ∧ la ≤ d := by
  unfold gridFilterData
  rw [List.mem_filterMap]
  constructor
  · rintro ⟨kv, hkv, hf⟩
    refine ⟨kv, hkv, ?_⟩
    cases hp : parseKey kv.1 with
    | none =>
      rw [hp] at hf
      exact Option.noConfusion hf
    | some pr =>
      obtain ⟨plo, pla⟩ := pr
      rw [hp] at hf
      simp only at hf
      by_cases hcond : (a ≤ plo && plo ≤ c && b ≤ pla && pla ≤ d) = true
      · rw [if_pos hcond] at hf
        injection hf with hf
        simp only [Prod.mk.injEq] at hf
        obtain ⟨h1, h2, h3⟩ := hf
        subst h1
        subst h2
        simp only [Bool.and_eq_true, decide_eq_true_eq] at hcond
        exact ⟨rfl, h3, hcond.1.1.1, hcond.1.1.2, hcond.1.2, hcond.2⟩
      · rw [if_neg hcond] at hf
        exact Option.noConfusion hf
  · rintro ⟨kv, hkv, hp, hv, h1, h2, h3, h4⟩
    refine ⟨kv, hkv, ?_⟩
    rw [hp]
    simp only
    rw [if_pos (by simp only [Bool.and_eq_true, decide_eq_true_eq]; exact ⟨⟨⟨h1, h2⟩, h3⟩, h4⟩),
      hv]

theorem mem_rangeResults_iff (st : Store) (cells : List (ℤ × ℤ)) (a b c d lo la : ℚ)
    (v : String) :
    ((lo, la, v) ∈ cells.flatMap fun rc =>
        gridFilterData (dbCellScan st (formatGridId rc.1 rc.2)) a b c d) ↔
      ∃ rc ∈ cells, ∃ k, (k, v) ∈ st ∧ inCellRange k (formatGridId rc.1 rc.2) = true ∧
        parseKey k = some (lo, la) ∧ a ≤ lo ∧ lo ≤ c ∧ b ≤ la ∧ la ≤ d := by
  rw [List.mem_flatMap]
  constructor
  · rintro ⟨rc, hrc, hmem⟩
    rw [gridFilterData_mem] at hmem
    obtain ⟨kv, hkv, hp, hv, hrect⟩ := hmem
    rw [show dbCellScan st (formatGridId rc.1 rc.2) =
        st.filter (fun kv => inCellRange kv.1 (formatGridId rc.1 rc.2)) from rfl,
      List.mem_filter] at hkv
    refine ⟨rc, hrc, kv.1, ?_, hkv.2, hp, hrect⟩
    rw [← hv]
    exact hkv.1
  · rintro ⟨rc, hrc, k, hst, hr, hp, h1, h2, h3, h4⟩
    refine ⟨rc, hrc, ?_⟩
    rw [gridFilterData_mem]
    exact ⟨(k, v), List.mem_filter.2 ⟨hst, hr⟩, hp, rfl, h1, h2, h3, h4⟩

/-- C2 (amended): after any history of successful operations on the initially
empty engine, `rangeQuery` invokes the callback on exactly the stored entries
whose key falls in one of the *covered* cells (cell indices clamped to
`[0, rows-1] × [0, cols-1]`, which misses points whose cell index equals
`rows`/`cols` at the exact upper bounds) and whose parsed — 7-fractional-digit
rounded — coordinates lie in the closed rectangle; the result set is the same
with the cache cleared beforehand, and the store holds exactly the accumulated
committed writes. -/
theorem c2_rangeQuery_amended (e : TerrainEngine) (ops : List TOp)
    (hops : ops.all (opOK e) = true) (a b c d lo la : ℚ) (v : String) :
    ((lo, la, v) ∈ (tRangeQuery e (runOps e initES ops) a b c d).2 ↔
      ∃ rc ∈ coveredCells e a b c d, ∃ k, (k, v) ∈ (runOps e initES ops).store ∧
        inCellRange k (formatGridId rc.1 rc.2) = true ∧
        parseKey k = some (lo, la) ∧ a ≤ lo ∧ lo ≤ c ∧ b ≤ la ∧ la ≤ d) ∧
    ((lo, la, v) ∈ (tRangeQuery e (runOps e initES ops) a b c d).2 ↔
      (lo, la, v) ∈ (tRangeQuery e (tClearCache (runOps e initES ops)) a b c d).2) ∧
    (runOps e initES ops).store = applyWrites [] (writesOf e ops) := by
  obtain ⟨hinv, hstore⟩ := runOps_inv e ops initES hops initES_inv
  obtain ⟨hres, -, -⟩ := tRangeQuery_spec e (runOps e initES ops) a b c d hinv
  have hinvC : EngInv (tClearCache (runOps e initES ops)) := tClearCache_inv _ hinv
  obtain ⟨hresC, -, -⟩ :=
    tRangeQuery_spec e (tClearCache (runOps e initES ops)) a b c d hinvC
  refine ⟨?_, ?_, hstore⟩
  · rw [hres, mem_rangeResults_iff]
  · rw [hres, hresC]
    exact Iff.rfl

/-- The small fixture for the counterexample: bounds `[0,1] × [0,1]`, one cell
of size 1. -/
def unitE : TerrainEngine := engineOf 0 0 1 1 1 1

/-- C2 counterexample: the in-bounds corner point `(1, 1)` is stored
successfully (and parses back to `(1, 1)`), yet `rangeQuery` over the full
closed bounds rectangle returns nothing — the point's cell has row = rows and
col = cols, which the covered-cell clamping to `rows-1`/`cols-1` never
reaches. -/
theorem c2_counterexample :
    isWithinBounds unitE 1 1 = true ∧
      stepOp unitE initES (TOp.put 1 1 "v") =
        ⟨[(generateKey 1 1 (computeGridId unitE 1 1), "v")], []⟩ ∧
      parseKey (generateKey 1 1 (computeGridId unitE 1 1)) = some (1, 1) ∧
      (tRangeQuery unitE (stepOp unitE initES (TOp.put 1 1 "v")) 0 0 1 1).2 = [] := by
  refine ⟨?_, ?_, ?_, ?_⟩ <;> with_unfolding_all decide

/-- Witness for the amended C2 at a one-point history on the unit fixture. -/
theorem c2_amended_witness :
    ([TOp.put (1/2 : ℚ) (1/2 : ℚ) "p"].all (opOK unitE) = true) ∧
      (((1/2 : ℚ), (1/2 : ℚ), "p") ∈
          (tRangeQuery unitE (runOps unitE initES [TOp.put (1/2 : ℚ) (1/2 : ℚ) "p"])
            0 0 1 1).2 ↔
        ∃ rc ∈ coveredCells unitE 0 0 1 1, ∃ k,
          (k, "p") ∈ (runOps unitE initES [TOp.put (1/2 : ℚ) (1/2 : ℚ) "p"]).store ∧
          inCellRange k (formatGridId rc.1 rc.2) = true ∧
          parseKey k = some (1/2, 1/2) ∧
          (0 : ℚ) ≤ 1/2 ∧ (1/2 : ℚ) ≤ 1 ∧ (0 : ℚ) ≤ 1/2 ∧ (1/2 : ℚ) ≤ 1) ∧
      (((1/2 : ℚ), (1/2 : ℚ), "p") ∈
          (tRangeQuery unitE (runOps unitE initES [TOp.put (1/2 : ℚ) (1/2 : ℚ) "p"])
            0 0 1 1).2 ↔
        ((1/2 : ℚ), (1/2 : ℚ), "p") ∈
          (tRangeQuery unitE
            (tClearCache (runOps unitE initES [TOp.put (1/2 : ℚ) (1/2 : ℚ) "p"]))
            0 0 1 1).2) ∧
      (runOps unitE initES [TOp.put (1/2 : ℚ) (1/2 : ℚ) "p"]).store =
        applyWrites [] (writesOf unitE [TOp.put (1/2 : ℚ) (1/2 : ℚ) "p"]) :=
  ⟨by with_unfolding_all decide,
    c2_rangeQuery_amended unitE [TOp.put (1/2 : ℚ) (1/2 : ℚ) "p"]
      (by with_unfolding_all decide) 0 0 1 1 (1/2) (1/2) "p"⟩
